import Mathlib

/-!
Verification of the SSK (subset-key) codec core against its specification.

The definitions below are shallow embeddings of the C sources:
  * `src/codec/cdu.c`                     — the CDU integer codec,
  * `src/codec/combinadic/*.c`            — binomial tables and rank/unrank,
  * `src/codec/chunks/*.c`                — ENUM/RAW/RAW_RUN token codecs,
  * `src/codec/segment.c`, `partition.c`  — segment and partition headers,
  * `src/codec/ssk_codec.c`               — the top-level encoder and decoder.

Machine integers are modelled as `Nat` (values stay below 2^64 on every path
the theorems exercise; where C performs modular arithmetic this is written
with explicit `% 2^w`).  A bit stream is modelled as a `Nat` whose bit `i`
is the stream bit at position `i` (the sources are LSB-first), together with
a length.  Functions guarded by C `assert` preconditions return `Option`,
with `none` for an assertion failure.
-/

namespace SSK

/-- Popcount of a natural number; models `__builtin_popcountll` /
`ssk_popcount64` from `ranking.c` (any correct model of the intrinsic). -/
def ssk_popcount64 (x : Nat) : Nat :=
  if x = 0 then 0 else ssk_popcount64 (x / 2) + x % 2
termination_by x
decreasing_by exact Nat.div_lt_self (Nat.pos_of_ne_zero (by assumption)) one_lt_two

/-- Count trailing zeros; models `__builtin_ctzll` from `ranking.c`
(the C call sites only use it on nonzero arguments; `0` would give 64). -/
def bb_ctz64 (x : Nat) : Nat :=
  if x = 0 then 64 else if x % 2 = 1 then 0 else bb_ctz64 (x / 2) + 1
termination_by x
decreasing_by exact Nat.div_lt_self (Nat.pos_of_ne_zero (by assumption)) one_lt_two

/-- The binomial table of `combinadic_init.c` (`binomial[k][n]`, k-major
fill): entry `(k, n)` is `0` when `k > n`, `1` when `k = 0` or `k = n`, and
otherwise the sum of entries `(k-1, n-1)` and `(k, n-1)`, both already
filled when `(k, n)` is computed.  The reversed layout `binomial_unrank`
holds the same values: `binomial_unrank[K-k][N-pos] = binomial[k][pos]`. -/
def binomialC : Nat → Nat → Nat
  | k, 0 => if k > 0 then 0 else 1
  | k, n + 1 =>
    if k > n + 1 then 0
    else if k = 0 ∨ k = n + 1 then 1
    else binomialC (k - 1) n + binomialC k n

/-- The bit-length loop of `ceil_log2` in `combinadic_init.c`:
`while (v > 0) { bits++; v >>= 1; }`. -/
def ceil_log2_loop (v : Nat) : Nat :=
  if v = 0 then 0 else ceil_log2_loop (v / 2) + 1
termination_by v
decreasing_by exact Nat.div_lt_self (Nat.pos_of_ne_zero (by assumption)) one_lt_two

/-- `ceil_log2` from `combinadic_init.c`: 0 for `x ≤ 1`, else the bit length
of `x - 1`. -/
def ceil_log2 (x : Nat) : Nat :=
  if x ≤ 1 then 0 else ceil_log2_loop (x - 1)

/-- The `ssk_rank_bits[k][n]` table as filled by `ssk_combinadic_init`:
0 when `k > n` or `k ∈ {0, n}`, otherwise `ceil_log2` of the binomial
entry. -/
def ssk_rank_bits (k n : Nat) : Nat :=
  if k > n then 0
  else if k = 0 ∨ k = n then 0
  else ceil_log2 (binomialC k n)

theorem binomialC_eq_choose (k n : Nat) : binomialC k n = Nat.choose n k := by
  induction n generalizing k with
  | zero =>
    rw [binomialC]
    rcases Nat.eq_zero_or_pos k with hk | hk
    · simp [hk]
    · rw [if_pos hk, Nat.choose_eq_zero_of_lt hk]
  | succ n ih =>
    rw [binomialC]
    by_cases h1 : k > n + 1
    · rw [if_pos h1, Nat.choose_eq_zero_of_lt h1]
    · rw [if_neg h1]
      by_cases h2 : k = 0 ∨ k = n + 1
      · rw [if_pos h2]
        rcases h2 with h2 | h2
        · simp [h2]
        · rw [h2, Nat.choose_self]
      · rw [if_neg h2]
        push_neg at h2
        obtain ⟨hk0, hkn⟩ := h2
        have hk1 : 1 ≤ k := Nat.pos_of_ne_zero hk0
        have : k - 1 + 1 = k := Nat.succ_pred_eq_of_pos hk1
        rw [ih (k - 1), ih k]
        have hcs := Nat.choose_succ_succ n (k - 1)
        simp only [Nat.succ_eq_add_one, this] at hcs
        exact hcs.symm

lemma lt_two_pow_ceil_log2_loop (v : Nat) : v < 2 ^ ceil_log2_loop v := by
  induction v using Nat.strong_induction_on with
  | _ v ih =>
    rw [ceil_log2_loop]
    by_cases h : v = 0
    · simp [h]
    · rw [if_neg h, pow_succ]
      have hlt := ih (v / 2) (Nat.div_lt_self (Nat.pos_of_ne_zero h) one_lt_two)
      omega

lemma two_pow_pred_le_ceil_log2_loop (v : Nat) (hv : v ≠ 0) :
    2 ^ (ceil_log2_loop v - 1) ≤ v := by
  induction v using Nat.strong_induction_on with
  | _ v ih =>
    rw [ceil_log2_loop, if_neg hv]
    by_cases h2 : v / 2 = 0
    · rw [ceil_log2_loop, if_pos h2]
      simpa using Nat.pos_of_ne_zero hv
    · have hrec := ih (v / 2) (Nat.div_lt_self (Nat.pos_of_ne_zero hv) one_lt_two) h2
      have hpos : 1 ≤ ceil_log2_loop (v / 2) := by
        rw [ceil_log2_loop, if_neg h2]; omega
      have : ceil_log2_loop (v / 2) + 1 - 1 = (ceil_log2_loop (v / 2) - 1) + 1 := by
        omega
      rw [this, pow_succ]
      have := Nat.div_mul_le_self v 2
      omega

lemma ceil_log2_eq_clog (x : Nat) : ceil_log2 x = Nat.clog 2 x := by
  rw [ceil_log2]
  by_cases hx : x ≤ 1
  · rw [if_pos hx, Nat.clog_of_right_le_one hx]
  · rw [if_neg hx]
    push_neg at hx
    have hx1 : x - 1 ≠ 0 := by omega
    set L := ceil_log2_loop (x - 1) with hL
    have hup : x - 1 < 2 ^ L := lt_two_pow_ceil_log2_loop (x - 1)
    have hlo : 2 ^ (L - 1) ≤ x - 1 := two_pow_pred_le_ceil_log2_loop (x - 1) hx1
    have hLpos : 1 ≤ L := by
      rw [hL, ceil_log2_loop, if_neg hx1]; omega
    apply le_antisymm
    · have : 2 ^ (L - 1) < x := by omega
      have := (Nat.pow_lt_iff_lt_clog (b := 2) one_lt_two).mp this
      omega
    · exact (Nat.le_pow_iff_clog_le one_lt_two).mp (by omega)

lemma ssk_rank_bits_eq_clog (k n : Nat) :
    ssk_rank_bits k n = Nat.clog 2 (Nat.choose n k) := by
  rw [ssk_rank_bits]
  by_cases h1 : k > n
  · rw [if_pos h1, Nat.choose_eq_zero_of_lt h1, Nat.clog_zero_right]
  · rw [if_neg h1]
    by_cases h2 : k = 0 ∨ k = n
    · rw [if_pos h2]
      rcases h2 with h2 | h2 <;> simp [h2, Nat.choose_self, Nat.clog_one_right]
    · rw [if_neg h2, ceil_log2_eq_clog, binomialC_eq_choose]

/-! ## CDU codec (`src/codec/cdu.c`, `include/cdu.h`) -/

/-- The CDU type enumeration from `cdu.h` (sentinels omitted). -/
inductive CDUtype where
  | CDU_TYPE_DEFAULT
  | CDU_TYPE_SMALL_INT
  | CDU_TYPE_MEDIUM_INT
  | CDU_TYPE_LARGE_INT
  | CDU_TYPE_ENUM_K
  | CDU_TYPE_ENUM_RANK
  | CDU_TYPE_INITIAL_DELTA
  | CDU_TYPE_RAW1
  | CDU_TYPE_RAW2
  | CDU_TYPE_RAW64
  | CDU_TYPE_ENUM_COMBINED
deriving DecidableEq, Repr

export CDUtype (CDU_TYPE_DEFAULT CDU_TYPE_SMALL_INT CDU_TYPE_MEDIUM_INT
  CDU_TYPE_LARGE_INT CDU_TYPE_ENUM_K CDU_TYPE_ENUM_RANK CDU_TYPE_INITIAL_DELTA
  CDU_TYPE_RAW1 CDU_TYPE_RAW2 CDU_TYPE_RAW64 CDU_TYPE_ENUM_COMBINED)

/-- The static fields of a `CDUParam` entry (the fields of the initializer
of `cdu_params` in `cdu.c`; the derived fields `middle_steps`, `def_steps`,
`steps` computed by `cdu_init` appear below as functions, and the mask
fields `conti`/`bmask`/`emask` are not modelled because `cdu_encode` and
`cdu_decode` never read them). -/
structure CDUParam where
  base_bits : Nat
  first : Nat
  fixed : Bool
  step_size : Nat
  max_mids : Nat
deriving DecidableEq, Repr

/-- The `cdu_params` initializer table from `cdu.c`
(`{base_bits, first, fixed, step_size, max_mids}` per type; the C
initializer lists them in the order base_bits, first, fixed, step_size,
max_mids). -/
def cdu_params : CDUtype → CDUParam
  | CDU_TYPE_DEFAULT       => ⟨16, 0, false, 3, 5⟩
  | CDU_TYPE_SMALL_INT     => ⟨32, 4, false, 6, 2⟩
  | CDU_TYPE_MEDIUM_INT    => ⟨32, 6, false, 7, 2⟩
  | CDU_TYPE_LARGE_INT     => ⟨32, 5, false, 7, 2⟩
  | CDU_TYPE_ENUM_K        => ⟨32, 4, false, 5, 4⟩
  | CDU_TYPE_ENUM_RANK     => ⟨48, 8, false, 12, 3⟩
  | CDU_TYPE_INITIAL_DELTA => ⟨32, 3, false, 8, 2⟩
  | CDU_TYPE_RAW1          => ⟨1, 0, true, 0, 0⟩
  | CDU_TYPE_RAW2          => ⟨2, 0, true, 0, 0⟩
  | CDU_TYPE_RAW64         => ⟨64, 0, true, 0, 0⟩
  | CDU_TYPE_ENUM_COMBINED => ⟨48, 8, true, 0, 0⟩

/-- The downward-adjustment loop of `cdu_init`: starting from a candidate
middle-step count, decrement while the remainder would be smaller than
`step_size` (stop at 0). -/
def cdu_mids_adjust (after step : Nat) : Nat → Nat
  | 0 => 0
  | m + 1 =>
    if step ≤ after - (m + 1) * step then m + 1 else cdu_mids_adjust after step m

/-- `middle_steps` as computed by `cdu_init` for a variable-length type:
`(base_bits - first) / step_size` clamped to `max_mids`, then adjusted
down until the remainder is at least `step_size`. -/
def cdu_middle_steps (p : CDUParam) : Nat :=
  cdu_mids_adjust (p.base_bits - p.first) p.step_size
    (min ((p.base_bits - p.first) / p.step_size) p.max_mids)

/-- The remainder step width computed by `cdu_init`. -/
def cdu_remainder (p : CDUParam) : Nat :=
  (p.base_bits - p.first) - cdu_middle_steps p * p.step_size

/-- `def_steps = 1 + middle_steps + 1` from `cdu_init`. -/
def cdu_def_steps (p : CDUParam) : Nat := cdu_middle_steps p + 2

/-- The 8-entry `steps` array as it sits in memory after `cdu_init`:
`[first, step_size × middle_steps, remainder]` followed by the
zero-initialized tail of the `steps[CDU_MAX_MAX_STEPS]` array (entries at
index `def_steps` and beyond are never written by `cdu_init` and stay 0
from static initialization). -/
def cdu_steps_of (p : CDUParam) : List Nat :=
  ([p.first] ++ List.replicate (cdu_middle_steps p) p.step_size ++
      [cdu_remainder p]) ++
    List.replicate (8 - (cdu_middle_steps p + 2)) 0

/-- Step array for a CDU type. -/
def cdu_steps (t : CDUtype) : List Nat := cdu_steps_of (cdu_params t)

/-- The variable-length encoding loop of `cdu_encode` (`cdu.c`): while the
remaining value does not fit in the current step, emit the step's payload
with continuation bit 1 and advance; finally emit the remaining value with
continuation bit 0.  `encoded |= x << bits_used` is `+ x * 2 ^ bits_used`
(the added bits are disjoint from those already placed), `value & (morebit-1)`
is `% 2 ^ w`, and `value >>= w` is `/ 2 ^ w`.  The `[]` case models running
past the end of the 8-entry step array, which the C code would do only for
values outside the type's range (undefined behavior there); no theorem
below reaches it. -/
def cdu_encode_loop : List Nat → Nat → Nat → Nat → Nat × Nat
  | [], _, encoded, bits_used => (encoded, bits_used)
  | w :: ws, value, encoded, bits_used =>
    if 2 ^ w ≤ value then
      cdu_encode_loop ws (value / 2 ^ w)
        (encoded + (value % 2 ^ w + 2 ^ w) * 2 ^ bits_used) (bits_used + (w + 1))
    else
      (encoded + value * 2 ^ bits_used, bits_used + (w + 1))

/-- `cdu_encode` from `cdu.c`, at the level of the bits it writes: returns
the encoded bit pattern and the number of bits written.  Fixed types write
the value truncated to `base_bits` (the mask applied by
`bb_place_fl_block`); variable types run the step loop. -/
def cdu_encode (t : CDUtype) (value : Nat) : Nat × Nat :=
  let p := cdu_params t
  if p.fixed then (value % 2 ^ p.base_bits, p.base_bits)
  else cdu_encode_loop (cdu_steps t) value 0 0

/-- The number of steps the encoder loop emits for a value. -/
def cdu_encode_count : List Nat → Nat → Nat
  | [], _ => 0
  | w :: ws, value =>
    if 2 ^ w ≤ value then cdu_encode_count ws (value / 2 ^ w) + 1 else 1

/-- Steps emitted by `cdu_encode` for a value of a variable-length type. -/
def cdu_count (t : CDUtype) (value : Nat) : Nat :=
  cdu_encode_count (cdu_steps t) value

/-- The variable-length decoding loop of `cdu_decode` (`cdu.c`): read the
current step's payload; if the continuation bit (the bit just above the
payload, `buffer & morebit`) is set, consume payload and continuation bit
and continue with the next step, else stop.  The `buffer` argument is the
64-bit window preloaded by `bb_fetch_vl_block`; the loop never checks
`buf_bits` and never returns an error, exactly as in the source.  The `[]`
case models reading past the 8-entry step array (undefined behavior in C,
reachable only for non-canonical windows; no theorem below depends on its
value). -/
def cdu_decode_loop : List Nat → Nat → Nat → Nat → Nat → Nat × Nat
  | [], _, _, value, bits_used => (value, bits_used)
  | w :: ws, buffer, shift, value, bits_used =>
    if buffer / 2 ^ w % 2 = 1 then
      cdu_decode_loop ws (buffer / 2 ^ (w + 1)) (shift + w)
        (value + buffer % 2 ^ w * 2 ^ shift) (bits_used + (w + 1))
    else
      (value + buffer % 2 ^ w * 2 ^ shift, bits_used + (w + 1))

/-- `cdu_decode` from `cdu.c`, on the 64-bit window fetched at `bit_pos`:
returns the decoded value and the bits consumed.  Mirrors the source: the
`buf_bits` parameter of the C function is never read, no truncation or
step-overrun check exists, and the error return 0 is unreachable. -/
def cdu_decode (t : CDUtype) (window : Nat) : Nat × Nat :=
  let p := cdu_params t
  if p.fixed then (window % 2 ^ p.base_bits, p.base_bits)
  else cdu_decode_loop (cdu_steps t) window 0 0 0

lemma cdu_encode_loop_acc (ws : List Nat) :
    ∀ v encoded bits_used,
      cdu_encode_loop ws v encoded bits_used
        = (encoded + (cdu_encode_loop ws v 0 0).1 * 2 ^ bits_used,
           bits_used + (cdu_encode_loop ws v 0 0).2) := by
  induction ws with
  | nil => intro v encoded bits_used; simp [cdu_encode_loop]
  | cons w ws ih =>
    intro v encoded bits_used
    by_cases h : 2 ^ w ≤ v
    · simp only [cdu_encode_loop, if_pos h, Nat.zero_add, pow_zero, mul_one]
      rw [ih (v / 2 ^ w) (encoded + (v % 2 ^ w + 2 ^ w) * 2 ^ bits_used) (bits_used + (w + 1)),
        ih (v / 2 ^ w) (v % 2 ^ w + 2 ^ w) (w + 1)]
      rw [Prod.mk.injEq]
      constructor
      · rw [Nat.add_mul, pow_add]
        ring
      · omega
    · simp only [cdu_encode_loop, if_neg h, Nat.zero_add, pow_zero, mul_one]

lemma cdu_encode_loop_lt (ws : List Nat) :
    ∀ v, (cdu_encode_loop ws v 0 0).1 < 2 ^ (cdu_encode_loop ws v 0 0).2 := by
  induction ws with
  | nil => intro v; simp [cdu_encode_loop]
  | cons w ws ih =>
    intro v
    by_cases h : 2 ^ w ≤ v
    · simp only [cdu_encode_loop, if_pos h, Nat.zero_add, pow_zero, mul_one]
      rw [cdu_encode_loop_acc ws (v / 2 ^ w) (v % 2 ^ w + 2 ^ w) (w + 1)]
      dsimp only
      set E := (cdu_encode_loop ws (v / 2 ^ w) 0 0).1 with hE
      set L := (cdu_encode_loop ws (v / 2 ^ w) 0 0).2 with hL
      have h1 : E < 2 ^ L := ih (v / 2 ^ w)
      have h2 : v % 2 ^ w < 2 ^ w := Nat.mod_lt _ (Nat.pos_pow_of_pos w (by norm_num))
      have hmul : (E + 1) * 2 ^ (w + 1) ≤ 2 ^ L * 2 ^ (w + 1) :=
        Nat.mul_le_mul_right _ h1
      have hexp : (E + 1) * 2 ^ (w + 1) = E * 2 ^ (w + 1) + 2 ^ (w + 1) := by ring
      have hpow : 2 ^ (w + 1 + L) = 2 ^ L * 2 ^ (w + 1) := by rw [pow_add]; ring
      have hp1 : 2 ^ (w + 1) = 2 ^ w + 2 ^ w := by rw [pow_succ]; ring
      rw [hpow]
      omega
    · simp only [cdu_encode_loop, if_neg h, Nat.zero_add, pow_zero, mul_one]
      push_neg at h
      have : 2 ^ w ≤ 2 ^ (w + 1) := Nat.pow_le_pow_right (by norm_num) (by omega)
      omega

/-- Central CDU round-trip lemma: decoding a window holding the encoder's
output, with arbitrary bits `J` above the written bits, recovers the value
and consumes exactly the written bits. -/
lemma cdu_roundtrip_loop (ws : List Nat) :
    ∀ v, v < 2 ^ ws.sum → ws ≠ [] →
    ∀ J shift value0 bits0,
      cdu_decode_loop ws ((cdu_encode_loop ws v 0 0).1 + J * 2 ^ (cdu_encode_loop ws v 0 0).2)
          shift value0 bits0
        = (value0 + v * 2 ^ shift, bits0 + (cdu_encode_loop ws v 0 0).2) := by
  induction ws with
  | nil => intro v _ hne; exact absurd rfl hne
  | cons w ws ih =>
    intro v hv _ J shift value0 bits0
    by_cases h : 2 ^ w ≤ v
    · -- continuation step
      have hwsne : ws ≠ [] := by
        rintro rfl
        simp only [List.sum_cons, List.sum_nil, Nat.add_zero] at hv
        omega
      have hv' : v / 2 ^ w < 2 ^ ws.sum := by
        apply Nat.div_lt_of_lt_mul
        have h2 := hv
        simp only [List.sum_cons, pow_add] at h2
        exact h2
      simp only [cdu_encode_loop, if_pos h, Nat.zero_add, pow_zero, mul_one]
      rw [cdu_encode_loop_acc ws (v / 2 ^ w) (v % 2 ^ w + 2 ^ w) (w + 1)]
      set E := (cdu_encode_loop ws (v / 2 ^ w) 0 0).1 with hE
      set L := (cdu_encode_loop ws (v / 2 ^ w) 0 0).2 with hL
      have hlow : v % 2 ^ w + 2 ^ w < 2 ^ (w + 1) := by
        have : v % 2 ^ w < 2 ^ w := Nat.mod_lt _ (Nat.pos_pow_of_pos w (by norm_num))
        rw [pow_succ]; omega
      -- window = low + hi * 2^(w+1)
      have hwin : v % 2 ^ w + 2 ^ w + E * 2 ^ (w + 1) + J * 2 ^ (w + 1 + L)
          = (v % 2 ^ w + 2 ^ w) + (E + J * 2 ^ L) * 2 ^ (w + 1) := by
        rw [Nat.add_mul, pow_add]
        ring
      rw [hwin]
      simp only [cdu_decode_loop]
      have hgoal_guard :
          ((v % 2 ^ w + 2 ^ w) + (E + J * 2 ^ L) * 2 ^ (w + 1)) / 2 ^ w % 2 = 1 := by
        have h2w : (0:Nat) < 2 ^ w := Nat.pos_pow_of_pos w (by norm_num)
        have hrw : (E + J * 2 ^ L) * 2 ^ (w + 1) = (E + J * 2 ^ L) * 2 * 2 ^ w := by
          rw [pow_succ]; ring
        rw [hrw, Nat.add_mul_div_right _ _ h2w]
        have : (v % 2 ^ w + 2 ^ w) / 2 ^ w = 1 := by
          rw [Nat.add_div_right _ h2w, Nat.div_eq_of_lt (Nat.mod_lt _ h2w)]
        rw [this]
        omega
      rw [if_pos hgoal_guard]
      have hdiv : ((v % 2 ^ w + 2 ^ w) + (E + J * 2 ^ L) * 2 ^ (w + 1)) / 2 ^ (w + 1)
          = E + J * 2 ^ L := by
        rw [Nat.add_mul_div_right _ _ (Nat.pos_pow_of_pos (w + 1) (by norm_num)),
          Nat.div_eq_of_lt hlow, Nat.zero_add]
      have hmod : ((v % 2 ^ w + 2 ^ w) + (E + J * 2 ^ L) * 2 ^ (w + 1)) % 2 ^ w
          = v % 2 ^ w := by
        have hrw : (E + J * 2 ^ L) * 2 ^ (w + 1) = (E + J * 2 ^ L) * 2 * 2 ^ w := by
          rw [pow_succ]; ring
        rw [hrw, Nat.add_mul_mod_self_right, Nat.add_mod_right,
          Nat.mod_mod_of_dvd _ dvd_rfl]
      rw [hdiv, hmod]
      have := ih (v / 2 ^ w) hv' hwsne J (shift + w)
        (value0 + v % 2 ^ w * 2 ^ shift) (bits0 + (w + 1))
      rw [← hE, ← hL] at this
      rw [this, Prod.mk.injEq]
      constructor
      · have hsplit : v = v % 2 ^ w + 2 ^ w * (v / 2 ^ w) := by
          rw [Nat.mod_add_div]
        rw [pow_add]
        calc value0 + v % 2 ^ w * 2 ^ shift + v / 2 ^ w * (2 ^ shift * 2 ^ w)
            = value0 + (v % 2 ^ w + 2 ^ w * (v / 2 ^ w)) * 2 ^ shift := by ring
          _ = value0 + v * 2 ^ shift := by rw [← hsplit]
      · omega
    · -- final step: value fits, continuation bit 0
      push_neg at h
      simp only [cdu_encode_loop, if_neg (not_le.mpr h), Nat.zero_add, pow_zero,
        mul_one]
      simp only [cdu_decode_loop]
      have h2w : (0:Nat) < 2 ^ w := Nat.pos_pow_of_pos w (by norm_num)
      have hrw : J * 2 ^ (w + 1) = J * 2 * 2 ^ w := by rw [pow_succ]; ring
      have hguard : (v + J * 2 ^ (w + 1)) / 2 ^ w % 2 = 0 := by
        rw [hrw, Nat.add_mul_div_right _ _ h2w, Nat.div_eq_of_lt h]
        omega
      rw [if_neg (by rw [hguard]; omega)]
      have hmod : (v + J * 2 ^ (w + 1)) % 2 ^ w = v := by
        rw [hrw, Nat.add_mul_mod_self_right, Nat.mod_eq_of_lt h]
      rw [hmod]

/-- The encoder's step count always covers the value. -/
lemma cdu_encode_count_carries (ws : List Nat) :
    ∀ v, v < 2 ^ ws.sum → ws ≠ [] →
      v < 2 ^ ((ws.take (cdu_encode_count ws v)).sum) := by
  induction ws with
  | nil => intro v _ hne; exact absurd rfl hne
  | cons w ws ih =>
    intro v hv _
    by_cases h : 2 ^ w ≤ v
    · have hwsne : ws ≠ [] := by
        rintro rfl
        simp only [List.sum_cons, List.sum_nil, Nat.add_zero] at hv
        omega
      have hv' : v / 2 ^ w < 2 ^ ws.sum := by
        apply Nat.div_lt_of_lt_mul
        have h2 := hv
        simp only [List.sum_cons, pow_add] at h2
        exact h2
      have hrec := ih (v / 2 ^ w) hv' hwsne
      simp only [cdu_encode_count, if_pos h, List.take_succ_cons, List.sum_cons,
        pow_add]
      have hmd : v % 2 ^ w + 2 ^ w * (v / 2 ^ w) = v := Nat.mod_add_div _ _
      have hm : v % 2 ^ w < 2 ^ w := Nat.mod_lt _ (Nat.pos_pow_of_pos w (by norm_num))
      have hmul : 2 ^ w * (v / 2 ^ w + 1)
          ≤ 2 ^ w * 2 ^ ((ws.take (cdu_encode_count ws (v / 2 ^ w))).sum) :=
        Nat.mul_le_mul_left _ hrec
      have hexp : 2 ^ w * (v / 2 ^ w + 1) = 2 ^ w * (v / 2 ^ w) + 2 ^ w := by ring
      omega
    · simp only [cdu_encode_count, if_neg h, List.take_succ_cons, List.take_zero,
        List.sum_cons, List.sum_nil, Nat.add_zero]
      omega

/-- The encoder's step count is minimal among step counts that carry the
value. -/
lemma cdu_encode_count_minimal (ws : List Nat) :
    ∀ v m, 0 < m → v < 2 ^ ((ws.take m).sum) → cdu_encode_count ws v ≤ m := by
  induction ws with
  | nil => intro v m _ _; simp [cdu_encode_count]
  | cons w ws ih =>
    intro v m hm hv
    by_cases h : 2 ^ w ≤ v
    · simp only [cdu_encode_count, if_pos h]
      match m, hm with
      | 1, _ =>
        exfalso
        simp only [List.take_succ_cons, List.take_zero, List.sum_cons, List.sum_nil,
          Nat.add_zero] at hv
        omega
      | m' + 2, _ =>
        have hv' : v / 2 ^ w < 2 ^ ((ws.take (m' + 1)).sum) := by
          apply Nat.div_lt_of_lt_mul
          have h2 := hv
          simp only [List.take_succ_cons, List.sum_cons, pow_add] at h2
          exact h2
        have := ih (v / 2 ^ w) (m' + 1) (by omega) hv'
        omega
    · simp only [cdu_encode_count, if_neg h]
      omega

/-- The decoder loop always consumes at least one bit per step entered. -/
lemma cdu_decode_loop_bits_ge (ws : List Nat) :
    ∀ buffer shift value bits_used,
      bits_used ≤ (cdu_decode_loop ws buffer shift value bits_used).2 := by
  induction ws with
  | nil => intro _ _ _ _; simp [cdu_decode_loop]
  | cons w ws ih =>
    intro buffer shift value bits_used
    rw [cdu_decode_loop]
    by_cases h : buffer / 2 ^ w % 2 = 1
    · rw [if_pos h]
      have := ih (buffer / 2 ^ (w + 1)) (shift + w)
        (value + buffer % 2 ^ w * 2 ^ shift) (bits_used + (w + 1))
      omega
    · rw [if_neg h]
      simp

/-- For every type, the step array built by `cdu_init` is nonempty and its
widths sum to `base_bits`. -/
lemma cdu_steps_sum_base (t : CDUtype) :
    (cdu_steps t).sum = (cdu_params t).base_bits ∧ cdu_steps t ≠ [] := by
  cases t <;> exact ⟨by decide, by decide⟩

lemma cdu_decode_loop_snd_pos (w : Nat) (ws : List Nat) (buffer : Nat) :
    (cdu_decode_loop (w :: ws) buffer 0 0 0).2 ≠ 0 := by
  simp only [cdu_decode_loop]
  by_cases h : buffer / 2 ^ w % 2 = 1
  · rw [if_pos h]
    have := cdu_decode_loop_bits_ge ws (buffer / 2 ^ (w + 1)) (0 + w)
      (0 + buffer % 2 ^ w * 2 ^ 0) (0 + (w + 1))
    omega
  · rw [if_neg h]
    simp

/-- C3: for every CDU type `T` and every representable value `v`
(`v < 2 ^ base_bits`; fixed types truncate to `base_bits`, so after
truncation every value is representable), decoding the encoder's output —
in any 64-bit window that contains the written bits at the bottom and
arbitrary following stream bits `J` above them — returns `v` and consumes
exactly the bits that were written; and for variable-length types the
number of steps written is the least step count whose widths can carry
`v`. -/
theorem c3_cdu_roundtrip_minimal (t : CDUtype) (v : Nat)
    (hv : v < 2 ^ (cdu_params t).base_bits) :
    (∀ J, cdu_decode t ((cdu_encode t v).1 + J * 2 ^ (cdu_encode t v).2)
        = (v, (cdu_encode t v).2))
    ∧ ((cdu_params t).fixed = false →
        v < 2 ^ (((cdu_steps t).take (cdu_count t v)).sum)
        ∧ ∀ m, 0 < m → v < 2 ^ (((cdu_steps t).take m).sum) → cdu_count t v ≤ m) := by
  obtain ⟨hsum, hne⟩ := cdu_steps_sum_base t
  by_cases hfix : (cdu_params t).fixed
  · constructor
    · intro J
      simp only [cdu_decode, cdu_encode, hfix, if_true]
      rw [Nat.mod_eq_of_lt hv, Nat.add_mul_mod_self_right, Nat.mod_eq_of_lt hv]
    · intro hcontra
      rw [hfix] at hcontra
      exact absurd hcontra (by simp)
  · have hfix' : (cdu_params t).fixed = false := by
      simpa using hfix
    have hv' : v < 2 ^ (cdu_steps t).sum := by rwa [hsum]
    constructor
    · intro J
      simp only [cdu_decode, cdu_encode, hfix', Bool.false_eq_true, if_false]
      have hrt := cdu_roundtrip_loop (cdu_steps t) v hv' hne J 0 0 0
      simpa using hrt
    · intro _
      exact ⟨cdu_encode_count_carries (cdu_steps t) v hv' hne,
        fun m hm hmv => cdu_encode_count_minimal (cdu_steps t) v m hm hmv⟩

/-- Witness for C3 at type `CDU_TYPE_DEFAULT`, value 5, junk 3. -/
theorem c3_cdu_roundtrip_minimal_witness :
    cdu_decode CDU_TYPE_DEFAULT
        ((cdu_encode CDU_TYPE_DEFAULT 5).1 + 3 * 2 ^ (cdu_encode CDU_TYPE_DEFAULT 5).2)
      = (5, (cdu_encode CDU_TYPE_DEFAULT 5).2) :=
  (c3_cdu_roundtrip_minimal CDU_TYPE_DEFAULT 5 (by decide)).1 3

/-- C5 (refuted by the source, supporting status `code_bug`): `cdu_decode`
never takes the documented error return (`cdu.h`: "Return bits consumed,
or 0 on error").  It performs no truncation check (its `buf_bits` argument
is unread, so the model does not take it) and no `def_steps` overrun
check.  The concrete window `2167057` (binary: continuation bit set after
each of the 6 defined steps of `CDU_TYPE_DEFAULT`, all payload bits 0,
then a 0 bit) would need 7 steps, one more than `def_steps = 6`; the
decoder consumes 23 bits — more than the 22 bits of a maximal valid
DEFAULT encoding — and reports success instead of the claimed
`InvalidEncoding` failure. -/
theorem c5_cdu_decode_never_fails :
    (∀ t window, (cdu_decode t window).2 ≠ 0)
    ∧ cdu_decode CDU_TYPE_DEFAULT 2167057 = (0, 23)
    ∧ (cdu_steps CDU_TYPE_DEFAULT).sum + cdu_def_steps (cdu_params CDU_TYPE_DEFAULT)
        = 22 := by
  refine ⟨?_, by decide, by decide⟩
  intro t window
  by_cases hfix : (cdu_params t).fixed
  · simp only [cdu_decode, hfix, if_true]
    have : 0 < (cdu_params t).base_bits := by cases t <;> decide
    omega
  · have hfix' : (cdu_params t).fixed = false := by simpa using hfix
    simp only [cdu_decode, hfix', Bool.false_eq_true, if_false]
    have hne := (cdu_steps_sum_base t).2
    match hlist : cdu_steps t with
    | [] => exact absurd hlist hne
    | w :: ws => exact cdu_decode_loop_snd_pos w ws window

/-! ## Combinadic rank/unrank (`src/codec/combinadic/ranking.c`) -/

lemma two_pow_ctz_le (x : Nat) (hx : x ≠ 0) : 2 ^ bb_ctz64 x ≤ x := by
  induction x using Nat.strong_induction_on with
  | _ x ih =>
    rw [bb_ctz64, if_neg hx]
    by_cases hodd : x % 2 = 1
    · rw [if_pos hodd]
      simpa using Nat.pos_of_ne_zero hx
    · rw [if_neg hodd]
      have hx2 : x / 2 ≠ 0 := by omega
      have := ih (x / 2) (Nat.div_lt_self (Nat.pos_of_ne_zero hx) one_lt_two) hx2
      rw [pow_succ]
      omega

/-- The loop of `ssk_combinadic_rank`: repeatedly takes the lowest set bit
at position `pos = ctz(bits)`, accumulates `binomial[j+1][pos]`, clears
the bit (`bits &= ~(1 << pos)`, which equals subtracting `2 ^ pos` since
the bit is set) and increments `j`; stops when `bits = 0` or `j ≥ k`, and
breaks early if `pos ≥ n`. -/
def rank_loop (bits n j k : Nat) : Nat :=
  if hz : bits = 0 then 0
  else if k ≤ j then 0
  else if n ≤ bb_ctz64 bits then 0
  else binomialC (j + 1) (bb_ctz64 bits) +
    rank_loop (bits - 2 ^ bb_ctz64 bits) n (j + 1) k
termination_by bits
decreasing_by
  have h1 := two_pow_ctz_le bits hz
  have h2 : 0 < 2 ^ bb_ctz64 bits := Nat.pos_pow_of_pos _ (by norm_num)
  omega

/-- `ssk_combinadic_rank` from `ranking.c`: asserts `k > 0` and
`k ≤ SSK_RANK_BITS_K_MAX (18)` (modelled as `none` when violated), then
runs the bit-scanning loop with `j = 0`. -/
def ssk_combinadic_rank (bits n k : Nat) : Option Nat :=
  if 0 < k ∧ k ≤ 18 then some (rank_loop bits n 0 k) else none

/-- The loop of `ssk_combinadic_unrank`: walk positions from `n-1` down
while `k > 0`; at position `p` compare `binomial[k][p]` (the value the
reversed-layout pointer `binp` designates) with the remaining rank: if
`binomial[k][p] ≤ rank`, set bit `p`, subtract, and step to `(k-1, p-1)`,
else step to `(k, p-1)`.  The argument is the number of positions still to
visit; running out of positions with `k > 0` walks the pointer off the
table in C (undefined behavior) and is modelled as returning the bits so
far — no theorem below reaches that case. -/
def unrank_loop (rank k : Nat) : Nat → Nat
  | 0 => 0
  | p + 1 =>
    if k = 0 then 0
    else if binomialC k p ≤ rank then
      2 ^ p + unrank_loop (rank - binomialC k p) (k - 1) p
    else unrank_loop rank k p

/-- `ssk_combinadic_unrank` from `ranking.c`: asserts `k > 0`, `k ≤ 18`
and `k ≤ n` (modelled as `none` when violated), then runs the greedy
descent from position `n - 1`. -/
def ssk_combinadic_unrank (rank n k : Nat) : Option Nat :=
  if 0 < k ∧ k ≤ 18 ∧ k ≤ n then some (unrank_loop rank k n) else none

/-- `ssk_combinadic_rank_valid` from `ranking.c`. -/
def ssk_combinadic_rank_valid (rank n k : Nat) : Bool :=
  if 64 < n ∨ 18 < k then false else decide (rank < binomialC k n)

/-- `ssk_binomial` from `combinadic_init.c` (bounds-checked table read;
`binomial_nmajor` holds the same values as `binomial`). -/
def ssk_binomial (n k : Nat) : Nat :=
  if 64 < n ∨ 18 < k then 0 else binomialC k n

lemma ssk_popcount64_zero : ssk_popcount64 0 = 0 := by
  rw [ssk_popcount64]; simp

lemma ssk_popcount64_eq_zero_iff (x : Nat) : ssk_popcount64 x = 0 ↔ x = 0 := by
  induction x using Nat.strong_induction_on with
  | _ x ih =>
    rw [ssk_popcount64]
    by_cases hx : x = 0
    · simp [hx]
    · rw [if_neg hx]
      constructor
      · intro h
        have h2 : ssk_popcount64 (x / 2) = 0 := by omega
        have h3 : x % 2 = 0 := by omega
        have := (ih (x / 2) (Nat.div_lt_self (Nat.pos_of_ne_zero hx) one_lt_two)).mp h2
        omega
      · intro h
        exact absurd h hx

lemma ssk_popcount64_le (x p : Nat) (h : x < 2 ^ p) : ssk_popcount64 x ≤ p := by
  induction p generalizing x with
  | zero =>
    have : x = 0 := by simpa using h
    simp [this, ssk_popcount64_zero]
  | succ p ih =>
    rw [ssk_popcount64]
    by_cases hx : x = 0
    · simp [hx]
    · rw [if_neg hx]
      have hdiv : x / 2 < 2 ^ p := by
        rw [pow_succ] at h
        omega
      have := ih (x / 2) hdiv
      omega

lemma ssk_popcount64_add_two_pow (b p : Nat) (hb : b < 2 ^ p) :
    ssk_popcount64 (b + 2 ^ p) = ssk_popcount64 b + 1 := by
  induction p generalizing b with
  | zero =>
    have : b = 0 := by simpa using hb
    subst this
    rw [ssk_popcount64]
    norm_num [ssk_popcount64_zero]
  | succ p ih =>
    have hne : b + 2 ^ (p + 1) ≠ 0 := by positivity
    rw [ssk_popcount64, if_neg hne]
    have hmod : (b + 2 ^ (p + 1)) % 2 = b % 2 := by
      have : 2 ^ (p + 1) % 2 = 0 := by
        rw [pow_succ]
        simp
      omega
    have hdivs : (b + 2 ^ (p + 1)) / 2 = b / 2 + 2 ^ p := by
      rw [pow_succ]
      omega
    have hb2 : b / 2 < 2 ^ p := by
      rw [pow_succ] at hb
      omega
    rw [hmod, hdivs, ih (b / 2) hb2]
    conv_rhs => rw [ssk_popcount64]
    by_cases hbz : b = 0
    · simp [hbz, ssk_popcount64_zero]
    · rw [if_neg hbz]
      omega

lemma bb_ctz64_lt (x p : Nat) (hx : x ≠ 0) (h : x < 2 ^ p) : bb_ctz64 x < p := by
  have h1 := two_pow_ctz_le x hx
  have h2 : 2 ^ bb_ctz64 x < 2 ^ p := lt_of_le_of_lt h1 h
  exact (Nat.pow_lt_pow_iff_right (by norm_num)).mp h2

lemma bb_ctz64_add_two_pow (x p : Nat) (hx : x ≠ 0) (h : x < 2 ^ p) :
    bb_ctz64 (x + 2 ^ p) = bb_ctz64 x := by
  induction p generalizing x with
  | zero => omega
  | succ p ih =>
    have hne : x + 2 ^ (p + 1) ≠ 0 := by positivity
    rw [bb_ctz64, if_neg hne]
    conv_rhs => rw [bb_ctz64, if_neg hx]
    have hmod : (x + 2 ^ (p + 1)) % 2 = x % 2 := by
      have : 2 ^ (p + 1) % 2 = 0 := by rw [pow_succ]; simp
      omega
    by_cases hodd : x % 2 = 1
    · rw [if_pos (by omega : (x + 2 ^ (p + 1)) % 2 = 1), if_pos hodd]
    · rw [if_neg (by omega : ¬ (x + 2 ^ (p + 1)) % 2 = 1), if_neg hodd]
      have hx2 : x / 2 ≠ 0 := by omega
      have hlt : x / 2 < 2 ^ p := by
        rw [pow_succ] at h
        omega
      have hdivs : (x + 2 ^ (p + 1)) / 2 = x / 2 + 2 ^ p := by
        rw [pow_succ]
        omega
      rw [hdivs, ih (x / 2) hx2 hlt]

lemma ssk_popcount64_sub_two_pow_ctz (x : Nat) (hx : x ≠ 0) :
    ssk_popcount64 (x - 2 ^ bb_ctz64 x) = ssk_popcount64 x - 1 := by
  induction x using Nat.strong_induction_on with
  | _ x ih =>
    by_cases hodd : x % 2 = 1
    · have hct : bb_ctz64 x = 0 := by rw [bb_ctz64, if_neg hx, if_pos hodd]
      rw [hct, pow_zero]
      have hpx : ssk_popcount64 x = ssk_popcount64 (x / 2) + 1 := by
        rw [ssk_popcount64, if_neg hx]
        omega
      by_cases hx1 : x = 1
      · subst hx1
        norm_num [ssk_popcount64_zero]
        rw [ssk_popcount64, if_neg (by norm_num), ssk_popcount64]
        norm_num
      · have hpx1 : ssk_popcount64 (x - 1) = ssk_popcount64 (x / 2) := by
          rw [ssk_popcount64, if_neg (by omega : ¬ x - 1 = 0)]
          have hd : (x - 1) / 2 = x / 2 := by omega
          have hm : (x - 1) % 2 = 0 := by omega
          rw [hd, hm]
          omega
        rw [hpx1, hpx]
        omega
    · have hx2 : x / 2 ≠ 0 := by omega
      have hct : bb_ctz64 x = bb_ctz64 (x / 2) + 1 := by
        rw [bb_ctz64, if_neg hx, if_neg hodd]
      have hrec := ih (x / 2) (Nat.div_lt_self (Nat.pos_of_ne_zero hx) one_lt_two) hx2
      have hpx : ssk_popcount64 x = ssk_popcount64 (x / 2) := by
        rw [ssk_popcount64, if_neg hx]
        omega
      have hsub : x - 2 ^ (bb_ctz64 (x / 2) + 1) = 2 * (x / 2 - 2 ^ bb_ctz64 (x / 2)) := by
        rw [pow_succ]
        omega
      rw [hct, hsub, hpx]
      by_cases hz : x / 2 - 2 ^ bb_ctz64 (x / 2) = 0
      · rw [hz, ssk_popcount64_zero] at hrec
        rw [hz, Nat.mul_zero, ssk_popcount64_zero]
        omega
      · have hmul2 : ssk_popcount64 (2 * (x / 2 - 2 ^ bb_ctz64 (x / 2)))
            = ssk_popcount64 (x / 2 - 2 ^ bb_ctz64 (x / 2)) := by
          rw [ssk_popcount64, if_neg (by omega : ¬ 2 * (x / 2 - 2 ^ bb_ctz64 (x / 2)) = 0)]
          have h1 : 2 * (x / 2 - 2 ^ bb_ctz64 (x / 2)) / 2
              = x / 2 - 2 ^ bb_ctz64 (x / 2) := by omega
          have h2 : 2 * (x / 2 - 2 ^ bb_ctz64 (x / 2)) % 2 = 0 := by omega
          rw [h1, h2]
          omega
        rw [hmul2, hrec]

lemma binomialC_pascal (k p : Nat) (hk : 0 < k) :
    binomialC k (p + 1) = binomialC (k - 1) p + binomialC k p := by
  rw [binomialC_eq_choose, binomialC_eq_choose, binomialC_eq_choose]
  have h := Nat.choose_succ_succ p (k - 1)
  have hkk : k - 1 + 1 = k := by omega
  simp only [Nat.succ_eq_add_one, hkk] at h
  exact h

lemma binomialC_pos (k n : Nat) (h : k ≤ n) : 0 < binomialC k n := by
  rw [binomialC_eq_choose]
  exact Nat.choose_pos h

lemma binomialC_of_lt (k n : Nat) (h : n < k) : binomialC k n = 0 := by
  rw [binomialC_eq_choose]
  exact Nat.choose_eq_zero_of_lt h

lemma binomialC_zero_left (n : Nat) : binomialC 0 n = 1 := by
  rw [binomialC_eq_choose]
  exact Nat.choose_zero_right n

lemma bb_ctz64_two_pow (p : Nat) : bb_ctz64 (2 ^ p) = p := by
  induction p with
  | zero =>
    rw [pow_zero, bb_ctz64]
    norm_num
  | succ p ih =>
    have hne : 2 ^ (p + 1) ≠ 0 := by positivity
    rw [bb_ctz64, if_neg hne]
    have hmod : 2 ^ (p + 1) % 2 = 0 := by rw [pow_succ]; simp
    rw [if_neg (by omega : ¬ 2 ^ (p + 1) % 2 = 1)]
    have hdiv : 2 ^ (p + 1) / 2 = 2 ^ p := by rw [pow_succ]; omega
    rw [hdiv, ih]

/-- `rank_sum bits j` is the value the rank loop accumulates when neither
the `j < k` cap nor the `pos ≥ n` break fires: the sum of
`binomial[j + i][pos_i]` over the set bits of `bits`, low to high
(proof device used to relate `rank_loop` and `unrank_loop`). -/
def rank_sum (bits j : Nat) : Nat :=
  if h : bits = 0 then 0
  else binomialC (j + 1) (bb_ctz64 bits) +
    rank_sum (bits - 2 ^ bb_ctz64 bits) (j + 1)
termination_by bits
decreasing_by
  have h1 := two_pow_ctz_le bits h
  have h2 : 0 < 2 ^ bb_ctz64 bits := Nat.pos_pow_of_pos _ (by norm_num)
  omega

lemma rank_sum_zero (j : Nat) : rank_sum 0 j = 0 := by
  rw [rank_sum]
  simp

/-- Under the preconditions of `ssk_combinadic_rank` (`bits` fits in `n`
bits and `k` at least `j` plus the popcount), the rank loop computes the
full combinadic sum: the `pos ≥ n` break and the `j ≥ k` cap never
trigger. -/
lemma rank_loop_eq_rank_sum (bits : Nat) :
    ∀ n j k, bits < 2 ^ n → j + ssk_popcount64 bits ≤ k →
      rank_loop bits n j k = rank_sum bits j := by
  induction bits using Nat.strong_induction_on with
  | _ bits ih =>
    intro n j k hn hk
    by_cases hz : bits = 0
    · subst hz
      rw [rank_loop, dif_pos rfl, rank_sum_zero]
    · have hp1 : 1 ≤ ssk_popcount64 bits := by
        have := ssk_popcount64_eq_zero_iff bits
        omega
      have hjk : ¬ k ≤ j := by omega
      have hctz : bb_ctz64 bits < n := bb_ctz64_lt bits n hz hn
      rw [rank_loop, dif_neg hz, if_neg hjk, if_neg (by omega : ¬ n ≤ bb_ctz64 bits)]
      rw [rank_sum, dif_neg hz]
      congr 1
      have hle := two_pow_ctz_le bits hz
      have hpow : 0 < 2 ^ bb_ctz64 bits := Nat.pos_pow_of_pos _ (by norm_num)
      have hlt : bits - 2 ^ bb_ctz64 bits < bits := by omega
      have hpc := ssk_popcount64_sub_two_pow_ctz bits hz
      exact ih (bits - 2 ^ bb_ctz64 bits) hlt n (j + 1) k (by omega) (by omega)

/-- Splitting off the top set bit: adding `2 ^ p` above all set bits of
`b` adds the term `binomial[j + popcount(b) + 1][p]` to the combinadic
sum. -/
lemma rank_sum_add_two_pow (b : Nat) :
    ∀ p j, b < 2 ^ p →
      rank_sum (b + 2 ^ p) j
        = rank_sum b j + binomialC (j + ssk_popcount64 b + 1) p := by
  induction b using Nat.strong_induction_on with
  | _ b ih =>
    intro p j hb
    by_cases hbz : b = 0
    · subst hbz
      have hne : 2 ^ p ≠ 0 := by positivity
      rw [Nat.zero_add, rank_sum, dif_neg hne, bb_ctz64_two_pow, Nat.sub_self,
        rank_sum_zero, rank_sum_zero, ssk_popcount64_zero]
      simp
    · have hctz := bb_ctz64_add_two_pow b p hbz hb
      have hle := two_pow_ctz_le b hbz
      have hne : b + 2 ^ p ≠ 0 := by positivity
      rw [rank_sum, dif_neg hne, hctz]
      have hsub : b + 2 ^ p - 2 ^ bb_ctz64 b = (b - 2 ^ bb_ctz64 b) + 2 ^ p := by
        omega
      rw [hsub]
      have hpow : 0 < 2 ^ bb_ctz64 b := Nat.pos_pow_of_pos _ (by norm_num)
      have hlt : b - 2 ^ bb_ctz64 b < b := by omega
      have hblt : b - 2 ^ bb_ctz64 b < 2 ^ p := by omega
      rw [ih (b - 2 ^ bb_ctz64 b) hlt p (j + 1) hblt]
      have hpc := ssk_popcount64_sub_two_pow_ctz b hbz
      have hp1 : 1 ≤ ssk_popcount64 b := by
        have := ssk_popcount64_eq_zero_iff b
        omega
      have hidx : j + 1 + ssk_popcount64 (b - 2 ^ bb_ctz64 b) + 1
          = j + ssk_popcount64 b + 1 := by omega
      rw [hidx]
      conv_rhs => rw [rank_sum, dif_neg hbz]
      ring

/-- Greedy unranking is correct: for `k ≤ p` and `r < C(p, k)`, the loop
produces a `p`-bit pattern with popcount `k` whose combinadic sum is `r`. -/
lemma unrank_loop_spec (p : Nat) :
    ∀ k r, k ≤ p → r < binomialC k p →
      unrank_loop r k p < 2 ^ p
      ∧ ssk_popcount64 (unrank_loop r k p) = k
      ∧ rank_sum (unrank_loop r k p) 0 = r := by
  induction p with
  | zero =>
    intro k r hk hr
    have hk0 : k = 0 := by omega
    subst hk0
    rw [binomialC_zero_left] at hr
    have hr0 : r = 0 := by omega
    subst hr0
    exact ⟨by norm_num [unrank_loop], by norm_num [unrank_loop, ssk_popcount64_zero],
      by norm_num [unrank_loop, rank_sum_zero]⟩
  | succ p ih =>
    intro k r hk hr
    by_cases hk0 : k = 0
    · subst hk0
      rw [binomialC_zero_left] at hr
      have hr0 : r = 0 := by omega
      subst hr0
      rw [unrank_loop, if_pos rfl]
      exact ⟨by positivity, by rw [ssk_popcount64_zero], by rw [rank_sum_zero]⟩
    · have hk1 : 1 ≤ k := Nat.pos_of_ne_zero hk0
      rw [unrank_loop, if_neg hk0]
      by_cases hc : binomialC k p ≤ r
      · rw [if_pos hc]
        have hkp1 : k - 1 ≤ p := by omega
        have hpas := binomialC_pascal k p hk1
        have hr' : r - binomialC k p < binomialC (k - 1) p := by omega
        obtain ⟨hb1, hb2, hb3⟩ := ih (k - 1) (r - binomialC k p) hkp1 hr'
        set b := unrank_loop (r - binomialC k p) (k - 1) p with hbdef
        refine ⟨?_, ?_, ?_⟩
        · rw [pow_succ]
          omega
        · rw [Nat.add_comm (2 ^ p) b, ssk_popcount64_add_two_pow b p hb1, hb2]
          omega
        · rw [Nat.add_comm (2 ^ p) b, rank_sum_add_two_pow b p 0 hb1, hb3, hb2]
          have hidx : 0 + (k - 1) + 1 = k := by omega
          rw [hidx]
          omega
      · rw [if_neg hc]
        have hkp : k ≤ p := by
          by_contra hgt
          push_neg at hgt
          rw [binomialC_of_lt k p hgt] at hc
          omega
        obtain ⟨hb1, hb2, hb3⟩ := ih k r hkp (by omega)
        have hmono : 2 ^ p < 2 ^ (p + 1) := by
          rw [pow_succ]
          have := Nat.pos_pow_of_pos p (show 0 < 2 by norm_num)
          omega
        exact ⟨lt_trans hb1 hmono, hb2, hb3⟩

/-- Converse: unranking the combinadic sum of any `p`-bit pattern, with
its popcount, reproduces the pattern, and the sum is below `C(p, k)`. -/
lemma rank_sum_unrank_inverse (p : Nat) :
    ∀ b, b < 2 ^ p →
      unrank_loop (rank_sum b 0) (ssk_popcount64 b) p = b
      ∧ rank_sum b 0 < binomialC (ssk_popcount64 b) p := by
  induction p with
  | zero =>
    intro b hb
    have hb0 : b = 0 := by simpa using hb
    subst hb0
    rw [ssk_popcount64_zero, rank_sum_zero]
    exact ⟨rfl, by rw [binomialC_zero_left]; omega⟩
  | succ p ih =>
    intro b hb
    by_cases hbig : 2 ^ p ≤ b
    · have hb2 : b - 2 ^ p < 2 ^ p := by
        rw [pow_succ] at hb
        omega
      obtain ⟨hu, hbound⟩ := ih (b - 2 ^ p) hb2
      have hbeq : b = (b - 2 ^ p) + 2 ^ p := by omega
      have hpc : ssk_popcount64 b = ssk_popcount64 (b - 2 ^ p) + 1 := by
        conv_lhs => rw [hbeq]
        exact ssk_popcount64_add_two_pow (b - 2 ^ p) p hb2
      have hrs : rank_sum b 0
          = rank_sum (b - 2 ^ p) 0 + binomialC (0 + ssk_popcount64 (b - 2 ^ p) + 1) p := by
        conv_lhs => rw [hbeq]
        exact rank_sum_add_two_pow (b - 2 ^ p) p 0 hb2
      have hidx : 0 + ssk_popcount64 (b - 2 ^ p) + 1 = ssk_popcount64 (b - 2 ^ p) + 1 := by
        omega
      rw [hidx] at hrs
      constructor
      · rw [hpc, unrank_loop, if_neg (by omega : ¬ ssk_popcount64 (b - 2 ^ p) + 1 = 0)]
        have hguard : binomialC (ssk_popcount64 (b - 2 ^ p) + 1) p ≤ rank_sum b 0 := by
          omega
        rw [if_pos hguard]
        have hsub : rank_sum b 0 - binomialC (ssk_popcount64 (b - 2 ^ p) + 1) p
            = rank_sum (b - 2 ^ p) 0 := by omega
        have hk1 : ssk_popcount64 (b - 2 ^ p) + 1 - 1 = ssk_popcount64 (b - 2 ^ p) := by
          omega
        rw [hsub, hk1, hu]
        omega
      · rw [hpc, binomialC_pascal (ssk_popcount64 (b - 2 ^ p) + 1) p (by omega)]
        have hk1 : ssk_popcount64 (b - 2 ^ p) + 1 - 1 = ssk_popcount64 (b - 2 ^ p) := by
          omega
        rw [hk1]
        omega
    · push_neg at hbig
      obtain ⟨hu, hbound⟩ := ih b hbig
      by_cases hk0 : ssk_popcount64 b = 0
      · have hb0 : b = 0 := (ssk_popcount64_eq_zero_iff b).mp hk0
        subst hb0
        rw [ssk_popcount64_zero, rank_sum_zero]
        constructor
        · rw [unrank_loop, if_pos rfl]
        · rw [binomialC_zero_left]
          omega
      · constructor
        · rw [unrank_loop, if_neg hk0,
            if_neg (by omega : ¬ binomialC (ssk_popcount64 b) p ≤ rank_sum b 0)]
          exact hu
        · have hpas := binomialC_pascal (ssk_popcount64 b) p (Nat.pos_of_ne_zero hk0)
          omega

/-- C4 counterexample: at `k = 0` (allowed by the claim's range
`k ∈ [0, min(n,18)]`, with `r = 0 < C(1,0) = 1` a valid rank) the source
functions do not produce a bit pattern at all: `ssk_combinadic_unrank`
asserts `k > 0` and `ssk_combinadic_rank` asserts `k > 0`
(`ranking.c`), so the assertion fires (modelled as `none`). -/
theorem c4_counterexample_k_zero :
    ssk_combinadic_unrank 0 1 0 = none ∧ ssk_combinadic_rank 0 1 0 = none
      ∧ 0 < Nat.choose 1 0 := by
  refine ⟨?_, ?_, by decide⟩ <;> decide

/-- C4 as amended (`k` restricted to `[1, min(n,18)]`, as forced by the
`k > 0` assertions): for every rank `r < C(n,k)`, unranking yields a
64-bit pattern with popcount exactly `k` whose rank is again `r`; and
conversely every `n`-bit pattern with popcount `k` is reproduced by
unranking its rank. -/
theorem c4_rank_unrank_bijection (n k : Nat) (hn1 : 1 ≤ n) (hn : n ≤ 64)
    (hk1 : 1 ≤ k) (hk : k ≤ min n 18) :
    (∀ r, r < Nat.choose n k →
      ∃ b, ssk_combinadic_unrank r n k = some b ∧ b < 2 ^ 64
        ∧ ssk_popcount64 b = k ∧ ssk_combinadic_rank b n k = some r)
    ∧ (∀ b, b < 2 ^ n → ssk_popcount64 b = k →
        ∃ r, ssk_combinadic_rank b n k = some r ∧ r < Nat.choose n k
          ∧ ssk_combinadic_unrank r n k = some b) := by
  have hkn : k ≤ n := le_trans hk (min_le_left _ _)
  have hk18 : k ≤ 18 := le_trans hk (min_le_right _ _)
  constructor
  · intro r hr
    rw [← binomialC_eq_choose] at hr
    obtain ⟨h1, h2, h3⟩ := unrank_loop_spec n k r hkn hr
    refine ⟨unrank_loop r k n, ?_, ?_, h2, ?_⟩
    · rw [ssk_combinadic_unrank, if_pos ⟨hk1, hk18, hkn⟩]
    · calc unrank_loop r k n < 2 ^ n := h1
        _ ≤ 2 ^ 64 := Nat.pow_le_pow_right (by norm_num) hn
    · rw [ssk_combinadic_rank, if_pos ⟨hk1, hk18⟩]
      rw [rank_loop_eq_rank_sum (unrank_loop r k n) n 0 k h1 (by rw [h2]; omega), h3]
  · intro b hb hpc
    obtain ⟨hu, hbound⟩ := rank_sum_unrank_inverse n b hb
    rw [hpc] at hu hbound
    refine ⟨rank_sum b 0, ?_, ?_, ?_⟩
    · rw [ssk_combinadic_rank, if_pos ⟨hk1, hk18⟩]
      rw [rank_loop_eq_rank_sum b n 0 k hb (by rw [hpc]; omega)]
    · rw [← binomialC_eq_choose]
      exact hbound
    · rw [ssk_combinadic_unrank, if_pos ⟨hk1, hk18, hkn⟩, hu]

/-- Witness for C4's amended theorem at `n = 2`, `k = 1`, `r = 0`. -/
theorem c4_rank_unrank_bijection_witness :
    ∃ b, ssk_combinadic_unrank 0 2 1 = some b ∧ b < 2 ^ 64
      ∧ ssk_popcount64 b = 1 ∧ ssk_combinadic_rank b 2 1 = some 0 :=
  (c4_rank_unrank_bijection 2 1 (by norm_num) (by norm_num) (by norm_num)
    (by norm_num)).1 0 (by decide)

/-- C9: after `ssk_combinadic_init`, the binomial table entry `(k, n)`
equals the mathematical `C(n,k)` for all table indices `k ≤ 18`,
`n ≤ 64` (`Nat.choose n k` is 0 when `k > n`, matching the table), and
the rank-bits entry equals `⌈log₂ C(n,k)⌉` (`Nat.clog 2`), which is 0
when `k = 0` or `k = n`. -/
theorem c9_table_correct (k n : Nat) (hk : k ≤ 18) (hn : n ≤ 64) :
    binomialC k n = Nat.choose n k
    ∧ (n < k → binomialC k n = 0)
    ∧ ssk_rank_bits k n = Nat.clog 2 (Nat.choose n k)
    ∧ ((k = 0 ∨ k = n) → ssk_rank_bits k n = 0) := by
  refine ⟨binomialC_eq_choose k n, fun h => binomialC_of_lt k n h,
    ssk_rank_bits_eq_clog k n, ?_⟩
  intro h
  rw [ssk_rank_bits]
  by_cases h1 : k > n
  · rw [if_pos h1]
  · rw [if_neg h1, if_pos h]

/-- Witness for C9 at `(k, n) = (2, 5)`. -/
theorem c9_table_correct_witness :
    binomialC 2 5 = Nat.choose 5 2
    ∧ (5 < 2 → binomialC 2 5 = 0)
    ∧ ssk_rank_bits 2 5 = Nat.clog 2 (Nat.choose 5 2)
    ∧ ((2 = 0 ∨ 2 = 5) → ssk_rank_bits 2 5 = 0) :=
  c9_table_correct 2 5 (by norm_num) (by norm_num)

/-! ## Tokens, segments and the top-level encoder
(`src/codec/chunks/*.c`, `src/codec/ssk_codec.c`, `include/abv_decoded.h`) -/

/-- `SSK_K_CHUNK_ENUM_MAX` from `ssk_constants.h`. -/
def SSK_K_CHUNK_ENUM_MAX : Nat := 18

/-- `SSK_N_BITS_FOR_K` from `ssk_constants.h`. -/
def SSK_N_BITS_FOR_K : Nat := 6

/-- Token tags (`ssk_format.h`): ENUM 00, RAW 01, RAW_RUN 10, reserved 11. -/
def TOK_ENUM : Nat := 0
def TOK_RAW : Nat := 1
def TOK_RAW_RUN : Nat := 2
def TOK_RESERVED : Nat := 3

/-- `ssk_get_rank_bits` from `combinadic_init.c` (bounds-checked read of
the `ssk_rank_bits[k][n]` table; note the argument order `(n, k)`). -/
def ssk_get_rank_bits (n k : Nat) : Nat :=
  if 64 < n ∨ 18 < k then 0 else ssk_rank_bits k n

/-- A wire field: the value the C code hands to `bb_write_bits` /
`cdu_encode` paired with its width in bits.  The stream is the fields in
order, LSB-first. -/
def bb_write_field (st : Nat × Nat) (f : Nat × Nat) : Nat × Nat :=
  (st.1 + f.1 % 2 ^ f.2 * 2 ^ st.2, st.2 + f.2)

/-- Flatten a field list into (bit pattern, total bit length); bit `i` of
the pattern is stream bit `i` (`bb_write_bits` is LSB-first and masks each
value to its width). -/
def flatten_fields (fs : List (Nat × Nat)) : Nat × Nat :=
  fs.foldl bb_write_field (0, 0)

/-- `enum_token_encode` from `chunk_enum.c`, as the field list it writes:
rejects `k > SSK_K_CHUNK_ENUM_MAX` (C returns 0), else writes the 2-bit
tag 00, `k` in `SSK_N_BITS_FOR_K` bits, and — only when `k > 0` — the
combinadic rank in `ssk_get_rank_bits(n, k)` bits. -/
def enum_token_encode (bits n k : Nat) : Option (List (Nat × Nat)) :=
  if SSK_K_CHUNK_ENUM_MAX < k then none
  else if 0 < k then
    (ssk_combinadic_rank bits n k).map fun rank =>
      [(TOK_ENUM, 2), (k, SSK_N_BITS_FOR_K), (rank, ssk_get_rank_bits n k)]
  else some [(TOK_ENUM, 2), (k, SSK_N_BITS_FOR_K)]

/-- `enum_token_decode` from `chunk_enum.c`, after the `k` field (6 bits,
masked by `bb_read_bits`) and — when `k > 0` — the rank field have been
fetched: validates `k ≤ SSK_K_CHUNK_ENUM_MAX`, `k ≤ n` and (when `k > 0`)
`ssk_combinadic_rank_valid`, then calls `ssk_combinadic_unrank(rank, n, k)`
UNCONDITIONALLY — also in the `k = 0` case (line 170), where unrank's
asserted precondition `k > 0` is violated (modelled as `none`). -/
def enum_token_decode (kfield rankfield n : Nat) : Option (Nat × Nat) :=
  let k := kfield % 2 ^ SSK_N_BITS_FOR_K
  if SSK_K_CHUNK_ENUM_MAX < k ∨ n < k then none
  else
    let rank := if 0 < k then rankfield % 2 ^ ssk_get_rank_bits n k else 0
    if 0 < k ∧ ssk_combinadic_rank_valid rank n k = false then none
    else (ssk_combinadic_unrank rank n k).map fun bits => (bits, k)

/-- The asserted preconditions of `ssk_combinadic_unrank` (`ranking.c`):
`k > 0`, `k ≤ SSK_RANK_BITS_K_MAX` and `k ≤ n`. -/
def unrank_preconditions (n k : Nat) : Prop := 0 < k ∧ k ≤ 18 ∧ k ≤ n

instance (n k : Nat) : Decidable (unrank_preconditions n k) := by
  rw [unrank_preconditions]
  infer_instance

/-- The per-token result of `token_decode` (`chunk_token.c`) before the
payload dispatch: −1 for the reserved tag, −2 (canon violation) when a
RAW token immediately follows a RAW token, 0 otherwise. -/
def token_decode_tag_check (token_type : Nat) (prev_was_raw : Bool) : Int :=
  if token_type = TOK_RESERVED then -1
  else if token_type = TOK_RAW ∧ prev_was_raw then -2
  else 0

/-- Decoded in-memory segment (`AbVSegment` in `abv_decoded.h`; the fields
the encoder reads, with the chunk metadata and block arrays as lists
indexed like `segment_chunk_meta_get` / `segment_chunk_block_get`). -/
structure AbVSeg where
  segment_type : Nat  -- SEG_TYPE_RLE = 0, SEG_TYPE_MIX = 1
  start_bit : Nat     -- uint32, bit position within the partition
  n_bits : Nat        -- uint32
  rare_bit : Nat      -- uint8 (0/1)
  metas : List Nat    -- 2-bit chunk metadata values
  blocks : List Nat   -- 64-bit chunk bitmaps
deriving DecidableEq, Repr

/-- Decoded partition (`AbVPartition`): `n_segments = segs.length`. -/
structure AbVPart where
  partition_id : Nat  -- uint32
  rare_bit : Nat
  segs : List AbVSeg
deriving DecidableEq, Repr

/-- Decoded root (`AbVRoot`): `n_partitions = parts.length`. -/
structure AbV where
  format_version : Nat
  rare_bit : Nat
  parts : List AbVPart
deriving DecidableEq, Repr

/-- `segment_n_chunks` from `abv_decoded.h`. -/
def segment_n_chunks (n_bits : Nat) : Nat := (n_bits + 63) / 64

/-- `segment_last_chunk_nbits` from `abv_decoded.h` (assumes
`n_bits > 0`). -/
def segment_last_chunk_nbits (n_bits : Nat) : Nat := (n_bits - 1) % 64 + 1

/-- `chunk_meta_type` from `abv_decoded.h` (`meta & 0x01`). -/
def chunk_meta_type (meta : Nat) : Nat := meta % 2

/-- The ENUM branch of the chunk loop in `ssk_encode_impl`
(`ssk_codec.c` lines 296–321): `k = popcount(block)`, then
`rank = ssk_combinadic_rank(block, n_bits, k)` — the encoder calls rank
for EVERY ENUM chunk, so for a chunk with `k = 0` (or `k > 18`) rank's
`assert(k > 0 && k ≤ SSK_RANK_BITS_K_MAX)` fires and the program aborts
emitting nothing (`none` here) — then the tag 00 in 2 bits and
`combined = (rank << 6) | k` in one `SSK_ENUM_COMBINED` CDU field
(`CDU_TYPE_ENUM_COMBINED`: fixed, 48 bits). -/
def ssk_encode_enum_chunk (block n_bits : Nat) : Option (List (Nat × Nat)) :=
  let k := ssk_popcount64 block
  (ssk_combinadic_rank block n_bits k).map fun rank =>
    [(TOK_ENUM, 2), cdu_encode CDU_TYPE_ENUM_COMBINED (rank * 2 ^ 6 + k)]

/-- One chunk of the MIX token stream in `ssk_encode_impl`: the 2-bit tag
is 00 for an ENUM chunk and 01 for anything else — the encoder never
emits RAW_RUN ("For now, assume single RAW (01) - RAW_RUN logic would be
more complex"); a RAW chunk is the tag followed by the block's `n_bits`
raw bits.  For an ENUM chunk whose popcount is 0 the program ABORTS
inside `ssk_combinadic_rank` and emits nothing (`ssk_encode_enum_chunk`
returns `none`); no field list is correct for that case — the `[]`
taken here stands for the absent output of a run that never completes,
and no theorem below concerns a stream containing such a chunk. -/
def ssk_encode_chunk (seg : AbVSeg) (c : Nat) : List (Nat × Nat) :=
  let block := seg.blocks.getD c 0
  let nb := if c = segment_n_chunks seg.n_bits - 1
    then segment_last_chunk_nbits seg.n_bits else 64
  if chunk_meta_type (seg.metas.getD c 0) = 0 then
    (ssk_encode_enum_chunk block nb).getD []
  else [(TOK_RAW, 2), (block, nb)]

/-- The 2-bit token tags the chunk loop of `ssk_encode_impl` emits for a
MIX segment's chunk metadata: 00 for ENUM, 01 for RAW, never 10
(RAW_RUN). -/
def ssk_encode_token_tags (metas : List Nat) : List Nat :=
  metas.map fun meta => if chunk_meta_type meta = 0 then TOK_ENUM else TOK_RAW

/-- One segment of `ssk_encode_impl` (4d): the 1-bit kind, the segment's
`start_bit` as the `SSK_SEGMENT_START_BIT` CDU field
(`CDU_TYPE_INITIAL_DELTA`), `n_bits` as the `SSK_SEGMENT_N_BITS` field
(`CDU_TYPE_MEDIUM_INT`), then for RLE the 1-bit membership
(`seg->rare_bit`), for MIX the chunk token stream. -/
def ssk_encode_segment (seg : AbVSeg) : List (Nat × Nat) :=
  [(if seg.segment_type = 0 then 0 else 1, 1),
    cdu_encode CDU_TYPE_INITIAL_DELTA seg.start_bit,
    cdu_encode CDU_TYPE_MEDIUM_INT seg.n_bits]
  ++ (if seg.segment_type = 0 then [(seg.rare_bit, 1)]
      else ((List.range (segment_n_chunks seg.n_bits)).map
        (ssk_encode_chunk seg)).flatten)

/-- One partition of `ssk_encode_impl` (4a–4d): the delta computed as
`part->partition_id - prev_partition_id` (uint32 arithmetic, NO `- 1`) as
the `SSK_PARTITION_DELTA` field (`CDU_TYPE_LARGE_INT`), the 1-bit
partition rare bit, `n_segments` (`CDU_TYPE_SMALL_INT`), then the
segments. -/
def ssk_encode_partition_fields (prev : Nat) (part : AbVPart) : List (Nat × Nat) :=
  [cdu_encode CDU_TYPE_LARGE_INT ((part.partition_id + 2 ^ 32 - prev) % 2 ^ 32),
    (part.rare_bit, 1),
    cdu_encode CDU_TYPE_SMALL_INT part.segs.length]
  ++ (part.segs.map ssk_encode_segment).flatten

/-- The partition walk of `ssk_encode_impl`: `prev_partition_id` starts
at 0 and is set to each partition's id after its delta is taken. -/
def ssk_encode_parts : Nat → List AbVPart → List (Nat × Nat)
  | _, [] => []
  | prev, part :: rest =>
    ssk_encode_partition_fields prev part ++ ssk_encode_parts part.partition_id rest

/-- The delta values the partition loop of `ssk_encode_impl` emits
(`partition_delta = part->partition_id - prev_partition_id`, uint32,
`prev_partition_id` initialized to 0). -/
def ssk_encode_partition_deltas : Nat → List Nat → List Nat
  | _, [] => []
  | prev, id :: rest =>
    (id + 2 ^ 32 - prev) % 2 ^ 32 :: ssk_encode_partition_deltas id rest

/-- `partition_delta` from `partition.c`: for the first partition
(`prev == UINT32_MAX` sentinel) the delta is the id itself; otherwise
`curr - prev - 1` (uint32 arithmetic; "consecutive partitions have
delta 0"). -/
def partition_delta (prev_partition curr_partition : Nat) : Nat :=
  if prev_partition = 2 ^ 32 - 1 then curr_partition
  else (curr_partition + 2 ^ 32 - (prev_partition + 1)) % 2 ^ 32

/-- `ssk_encode_impl` (Format 0) as its field stream: `format_version`
(`SSK_FORMAT` = `CDU_TYPE_DEFAULT`), the 1-bit global rare bit,
`n_partitions` (`SSK_PARTITIONS` = `CDU_TYPE_SMALL_INT`), then the
partitions. -/
def ssk_encode_impl (abv : AbV) : List (Nat × Nat) :=
  [cdu_encode CDU_TYPE_DEFAULT abv.format_version,
    (abv.rare_bit, 1),
    cdu_encode CDU_TYPE_SMALL_INT abv.parts.length]
  ++ ssk_encode_parts 0 abv.parts

/-- `ssk_encode` (Format 0): the bit stream `ssk_encode_impl` writes into
the caller's buffer, as (bits, bit length); the C function then returns
`(bit length + 7) / 8` bytes. -/
def ssk_encode (abv : AbV) : Nat × Nat := flatten_fields (ssk_encode_impl abv)

/-- `ssk_decode` (Format 0) from `ssk_codec.c`:
`// TODO: Implement Format 0 decoding (blocked on partition strategy)`
`return -1;` — an unconditional failure, for every input. -/
def ssk_decode (_buffer : Nat) (_buffer_size : Nat) : Int := -1

/-- C1 (refuted by the source, supporting status `code_bug`): Format 0
`ssk_decode` is an unimplemented stub ("TODO: Implement Format 0 decoding
(blocked on partition strategy)") that returns −1 — the error return per
its own contract — for every input, so `decode(encode(A))` never
succeeds, in particular not for the empty AbV. -/
theorem c1_decode_of_encode_always_fails :
    (∀ abv : AbV, ssk_decode (ssk_encode abv).1 (ssk_encode abv).2 = -1)
    ∧ ssk_decode (ssk_encode ⟨0, 0, []⟩).1 (ssk_encode ⟨0, 0, []⟩).2 = -1 :=
  ⟨fun _ => rfl, rfl⟩

/-- C2 (refuted by the source, supporting status `code_bug`): for the
three-partition AbV with ids 0, 1, 2, the top-level encoder emits the
delta stream {0, 1, 1} (it computes `partition_id - prev` with `prev`
initialized to 0 and no `- 1`), while `partition.c`'s own
`partition_delta` — and the claim — give {0, 0, 0}. -/
theorem c2_partition_delta_divergence :
    ssk_encode_partition_deltas 0 [0, 1, 2] = [0, 1, 1]
    ∧ [partition_delta (2 ^ 32 - 1) 0, partition_delta 0 1, partition_delta 1 2]
        = [0, 0, 0]
    ∧ ssk_encode_partition_deltas 0 [0, 1, 2] ≠ [0, 0, 0] := by
  refine ⟨by decide, by decide, by decide⟩

/-- C7 (refuted by the source, supporting status `code_bug`): the
top-level encoder tags every in-memory RAW chunk as a RAW token — for a
MIX segment with two consecutive RAW chunks (metadata 01, 01) it emits
the tag stream RAW, RAW and never emits RAW_RUN at all — while its own
decoder (`token_decode`, `chunk_token.c`) rejects a RAW token following a
RAW token with the canon-violation result −2. -/
theorem c7_raw_coalescing_missing :
    ssk_encode_token_tags [1, 1] = [TOK_RAW, TOK_RAW]
    ∧ token_decode_tag_check TOK_RAW true = -2
    ∧ ∀ metas, TOK_RAW_RUN ∉ ssk_encode_token_tags metas := by
  refine ⟨by decide, by decide, ?_⟩
  intro metas hmem
  simp only [ssk_encode_token_tags, List.mem_map] at hmem
  obtain ⟨m, _, hm⟩ := hmem
  by_cases h : chunk_meta_type m = 0 <;>
    simp only [h, if_true, if_false, TOK_ENUM, TOK_RAW, TOK_RAW_RUN] at hm <;>
    omega

/-- C10 (refuted by the source, supporting status `code_bug`): an ENUM
token with `k = 0` (6-bit k field 0, no rank field) passes
`enum_token_decode`'s own validation, yet the decoder then calls
`ssk_combinadic_unrank(0, 64, 0)` unconditionally, violating unrank's
asserted precondition `k > 0` (the assertion fires; modelled as `none`),
so the decode does not complete with the all-zero chunk.  For accepted
tokens with `k ≥ 1` the validation does imply the asserted
preconditions. -/
theorem c10_enum_decode_calls_unrank_with_k_zero :
    enum_token_decode 0 0 64 = none
    ∧ ¬ (SSK_K_CHUNK_ENUM_MAX < 0 % 2 ^ SSK_N_BITS_FOR_K
          ∨ (64 : Nat) < 0 % 2 ^ SSK_N_BITS_FOR_K)
    ∧ ¬ unrank_preconditions 64 0
    ∧ ssk_combinadic_unrank 0 64 0 = none
    ∧ (∀ n kfield, 0 < kfield % 2 ^ SSK_N_BITS_FOR_K →
        ¬ (SSK_K_CHUNK_ENUM_MAX < kfield % 2 ^ SSK_N_BITS_FOR_K
            ∨ n < kfield % 2 ^ SSK_N_BITS_FOR_K) →
        unrank_preconditions n (kfield % 2 ^ SSK_N_BITS_FOR_K)) := by
  refine ⟨by decide, by decide, by decide, by decide, ?_⟩
  intro n kfield hpos hacc
  push_neg at hacc
  rw [unrank_preconditions, SSK_K_CHUNK_ENUM_MAX] at *
  exact ⟨hpos, hacc.1, hacc.2⟩

lemma binomialC_le_two_pow_rank_bits (k n : Nat) :
    binomialC k n ≤ 2 ^ ssk_rank_bits k n := by
  rw [ssk_rank_bits_eq_clog, binomialC_eq_choose]
  exact Nat.le_pow_clog one_lt_two _

lemma ssk_get_rank_bits_64_1 : ssk_get_rank_bits 64 1 = 6 := by
  have h1 : binomialC 1 64 = 64 := by
    rw [binomialC_eq_choose, Nat.choose_one_right]
  rw [ssk_get_rank_bits, if_neg (by norm_num), ssk_rank_bits,
    if_neg (by norm_num), if_neg (by norm_num), h1, ceil_log2, if_neg (by norm_num)]
  have e0 : ceil_log2_loop 0 = 0 := by rw [ceil_log2_loop]; norm_num
  have e1 : ceil_log2_loop 1 = 1 := by rw [ceil_log2_loop]; norm_num [e0]
  have e3 : ceil_log2_loop 3 = 2 := by rw [ceil_log2_loop]; norm_num [e1]
  have e7 : ceil_log2_loop 7 = 3 := by rw [ceil_log2_loop]; norm_num [e3]
  have e15 : ceil_log2_loop 15 = 4 := by rw [ceil_log2_loop]; norm_num [e7]
  have e31 : ceil_log2_loop 31 = 5 := by rw [ceil_log2_loop]; norm_num [e15]
  have e63 : ceil_log2_loop 63 = 6 := by rw [ceil_log2_loop]; norm_num [e31]
  norm_num [e63]

/-- C6, the part that holds (amended): `enum_token_encode`
(`chunk_enum.c`) writes the 2-bit tag 00, then `k` in exactly 6 bits,
then the combinadic rank in exactly `rank_bits[k][n]` bits — a field that
is zero bits wide (omitted) when `k = 0` (skipped) or `k = n`
(`rank_bits[n][n] = 0`).  The top-level encoder's ENUM chunk
(`ssk_encode_impl`) does NOT follow this layout: for `k ≥ 1` it writes,
after the tag, one fixed 48-bit `SSK_ENUM_COMBINED` field, so its token
is always 2 + 48 bits; for an all-zero chunk (`k = 0`) it aborts inside
`ssk_combinadic_rank` (`assert(k > 0)`, `ranking.c`) and emits
nothing. -/
theorem c6_enum_token_layout (n k bits : Nat) (hn1 : 1 ≤ n) (hn : n ≤ 64)
    (hk : k ≤ SSK_K_CHUNK_ENUM_MAX) (hkn : k ≤ n) (hb : bits < 2 ^ n)
    (hpc : ssk_popcount64 bits = k) :
    ∃ fs rank,
      enum_token_encode bits n k = some fs
      ∧ rank < 2 ^ ssk_get_rank_bits n k
      ∧ flatten_fields fs
          = (TOK_ENUM + k * 2 ^ 2 + rank * 2 ^ (2 + SSK_N_BITS_FOR_K),
             2 + SSK_N_BITS_FOR_K + ssk_get_rank_bits n k)
      ∧ ((k = 0 ∨ k = n) → ssk_get_rank_bits n k = 0)
      ∧ (0 < k → ∃ fs2, ssk_encode_enum_chunk bits n = some fs2
          ∧ (flatten_fields fs2).2
              = 2 + (cdu_params CDU_TYPE_ENUM_COMBINED).base_bits)
      ∧ (k = 0 → ssk_encode_enum_chunk bits n = none) := by
  have hk18 : k ≤ 18 := hk
  have hrb_eq : ssk_get_rank_bits n k = ssk_rank_bits k n := by
    rw [ssk_get_rank_bits, if_neg]
    push_neg
    exact ⟨by omega, by omega⟩
  have hzero : (k = 0 ∨ k = n) → ssk_get_rank_bits n k = 0 := by
    intro h
    rw [hrb_eq, ssk_rank_bits, if_neg (by omega), if_pos h]
  have henc2 : ssk_encode_enum_chunk bits n
      = (ssk_combinadic_rank bits n (ssk_popcount64 bits)).map fun rank =>
        [(TOK_ENUM, 2), cdu_encode CDU_TYPE_ENUM_COMBINED
          (rank * 2 ^ 6 + ssk_popcount64 bits)] := rfl
  by_cases hk0 : 0 < k
  · have hknot : ¬ SSK_K_CHUNK_ENUM_MAX < k := by
      show ¬ 18 < k
      omega
    have hwrap : ssk_combinadic_rank bits n k = some (rank_loop bits n 0 k) := by
      rw [ssk_combinadic_rank, if_pos ⟨hk0, hk18⟩]
    set rank := rank_loop bits n 0 k with hrank
    have henc : enum_token_encode bits n k
        = some [(TOK_ENUM, 2), (k, SSK_N_BITS_FOR_K), (rank, ssk_get_rank_bits n k)] := by
      rw [enum_token_encode, if_neg hknot, if_pos hk0, hwrap]
      rfl
    have hrs : rank = rank_sum bits 0 := by
      rw [hrank]
      exact rank_loop_eq_rank_sum bits n 0 k hb (by omega)
    have hbound : rank < binomialC k n := by
      have h2 := (rank_sum_unrank_inverse n bits hb).2
      rw [hpc] at h2
      rw [hrs]
      exact h2
    have hlt : rank < 2 ^ ssk_get_rank_bits n k := by
      rw [hrb_eq]
      exact lt_of_lt_of_le hbound (binomialC_le_two_pow_rank_bits k n)
    have htop : 0 < k → ∃ fs2, ssk_encode_enum_chunk bits n = some fs2
        ∧ (flatten_fields fs2).2
            = 2 + (cdu_params CDU_TYPE_ENUM_COMBINED).base_bits := by
      intro _
      refine ⟨[(TOK_ENUM, 2),
        cdu_encode CDU_TYPE_ENUM_COMBINED (rank * 2 ^ 6 + k)], ?_, rfl⟩
      rw [henc2, hpc, hwrap]
      rfl
    have habort : k = 0 → ssk_encode_enum_chunk bits n = none := by
      intro hkz
      exact absurd hkz (by omega)
    refine ⟨_, rank, henc, hlt, ?_, hzero, htop, habort⟩
    simp only [flatten_fields, List.foldl_cons, List.foldl_nil, bb_write_field]
    have hm1 : TOK_ENUM % 2 ^ 2 = TOK_ENUM := by decide
    have hm2 : k % 2 ^ SSK_N_BITS_FOR_K = k := by
      apply Nat.mod_eq_of_lt
      show k < 2 ^ 6
      omega
    have hm3 : rank % 2 ^ ssk_get_rank_bits n k = rank := Nat.mod_eq_of_lt hlt
    rw [hm1, hm2, hm3, Prod.mk.injEq]
    constructor
    · show TOK_ENUM * 2 ^ 0 + k * 2 ^ (0 + 2)
          + rank * 2 ^ (0 + 2 + SSK_N_BITS_FOR_K)
        = TOK_ENUM + k * 2 ^ 2 + rank * 2 ^ (2 + SSK_N_BITS_FOR_K)
      norm_num
    · show 0 + 2 + SSK_N_BITS_FOR_K + ssk_get_rank_bits n k
        = 2 + SSK_N_BITS_FOR_K + ssk_get_rank_bits n k
      omega
  · have hkz : k = 0 := by omega
    subst hkz
    have htop : 0 < 0 → ∃ fs2, ssk_encode_enum_chunk bits n = some fs2
        ∧ (flatten_fields fs2).2
            = 2 + (cdu_params CDU_TYPE_ENUM_COMBINED).base_bits := by
      intro h
      exact absurd h (by omega)
    have habort : (0 : Nat) = 0 → ssk_encode_enum_chunk bits n = none := by
      intro _
      rw [henc2, hpc, ssk_combinadic_rank, if_neg (by omega)]
      rfl
    refine ⟨[(TOK_ENUM, 2), (0, SSK_N_BITS_FOR_K)], 0, ?_, ?_, ?_, hzero, htop, habort⟩
    · rw [enum_token_encode]
      norm_num [SSK_K_CHUNK_ENUM_MAX]
    · positivity
    · rw [hzero (Or.inl rfl)]
      simp only [flatten_fields, List.foldl_cons, List.foldl_nil, bb_write_field]
      rw [Prod.mk.injEq]
      constructor
      · show 0 + TOK_ENUM % 2 ^ 2 * 2 ^ 0 + 0 % 2 ^ SSK_N_BITS_FOR_K * 2 ^ (0 + 2)
          = TOK_ENUM + 0 * 2 ^ 2 + 0 * 2 ^ (2 + SSK_N_BITS_FOR_K)
        decide
      · decide

/-- Witness for C6's theorem at `n = 64`, `k = 1`, `bits = 1`. -/
theorem c6_enum_token_layout_witness :
    ∃ fs rank,
      enum_token_encode 1 64 1 = some fs
      ∧ rank < 2 ^ ssk_get_rank_bits 64 1
      ∧ flatten_fields fs
          = (TOK_ENUM + 1 * 2 ^ 2 + rank * 2 ^ (2 + SSK_N_BITS_FOR_K),
             2 + SSK_N_BITS_FOR_K + ssk_get_rank_bits 64 1)
      ∧ ((1 = 0 ∨ 1 = 64) → ssk_get_rank_bits 64 1 = 0)
      ∧ ((0 : Nat) < 1 → ∃ fs2, ssk_encode_enum_chunk 1 64 = some fs2
          ∧ (flatten_fields fs2).2
              = 2 + (cdu_params CDU_TYPE_ENUM_COMBINED).base_bits)
      ∧ ((1 : Nat) = 0 → ssk_encode_enum_chunk 1 64 = none) :=
  c6_enum_token_layout 64 1 1 (by norm_num) (by norm_num)
    (by norm_num [SSK_K_CHUNK_ENUM_MAX]) (by norm_num) (by norm_num)
    (by rw [ssk_popcount64, ssk_popcount64]; norm_num)

/-- C6 counterexample: for the chunk `bits = 1`, `n = 64` (`k = 1`), the
top-level encoder's ENUM token occupies 2 + 48 = 50 bits (fixed
`SSK_ENUM_COMBINED` field), not the `2 + 6 + rank_bits[1][64] = 14` bits
of the layout the claim states. -/
theorem c6_counterexample_top_level_enum_width :
    (∃ fs, ssk_encode_enum_chunk 1 64 = some fs ∧ (flatten_fields fs).2 = 50)
    ∧ 2 + SSK_N_BITS_FOR_K + ssk_get_rank_bits 64 1 = 14
    ∧ (50 : Nat) ≠ 14 := by
  have hpc : ssk_popcount64 1 = 1 := by
    rw [ssk_popcount64, ssk_popcount64]
    norm_num
  have hwrap : ssk_combinadic_rank 1 64 1 = some (rank_loop 1 64 0 1) := by
    rw [ssk_combinadic_rank, if_pos ⟨one_pos, by norm_num⟩]
  have henc2 : ssk_encode_enum_chunk 1 64
      = (ssk_combinadic_rank 1 64 (ssk_popcount64 1)).map fun rank =>
        [(TOK_ENUM, 2), cdu_encode CDU_TYPE_ENUM_COMBINED
          (rank * 2 ^ 6 + ssk_popcount64 1)] := rfl
  refine ⟨⟨[(TOK_ENUM, 2),
      cdu_encode CDU_TYPE_ENUM_COMBINED (rank_loop 1 64 0 1 * 2 ^ 6 + 1)], ?_, rfl⟩,
    ?_, by decide⟩
  · rw [henc2, hpc, hwrap]
    rfl
  · rw [ssk_get_rank_bits_64_1]
    decide

/-- C8 as amended: the wire form of an RLE segment written by the
top-level encoder (`ssk_encode_impl` 4d) consists, after the 1-bit
segment-kind tag (0 = RLE), of: the segment's `start_bit` — its absolute
bit offset within the partition, NOT the offset from the previous
segment's end — as a `SSK_SEGMENT_START_BIT` CDU field, then `n_bits`
(`length_bits`, positive for a valid segment) as a `SSK_SEGMENT_N_BITS`
CDU field, then the single membership bit (`seg->rare_bit`).  Stated by
parsing the emitted bit stream back field by field. -/
theorem c8_rle_segment_wire (seg : AbVSeg) (htype : seg.segment_type = 0)
    (hs : seg.start_bit < 2 ^ 32) (hn : seg.n_bits < 2 ^ 32)
    (h0 : 0 < seg.n_bits) (hr : seg.rare_bit ≤ 1) :
    ∃ d l,
      (flatten_fields (ssk_encode_segment seg)).2 = 1 + d + l + 1
      ∧ (flatten_fields (ssk_encode_segment seg)).1 % 2 = 0
      ∧ cdu_decode CDU_TYPE_INITIAL_DELTA
          ((flatten_fields (ssk_encode_segment seg)).1 / 2 ^ 1)
          = (seg.start_bit, d)
      ∧ cdu_decode CDU_TYPE_MEDIUM_INT
          ((flatten_fields (ssk_encode_segment seg)).1 / 2 ^ (1 + d))
          = (seg.n_bits, l)
      ∧ (flatten_fields (ssk_encode_segment seg)).1 / 2 ^ (1 + d + l) % 2
          = seg.rare_bit := by
  have hvar1 : cdu_encode CDU_TYPE_INITIAL_DELTA seg.start_bit
      = cdu_encode_loop (cdu_steps CDU_TYPE_INITIAL_DELTA) seg.start_bit 0 0 := rfl
  have hvar2 : cdu_encode CDU_TYPE_MEDIUM_INT seg.n_bits
      = cdu_encode_loop (cdu_steps CDU_TYPE_MEDIUM_INT) seg.n_bits 0 0 := rfl
  set E1 := (cdu_encode CDU_TYPE_INITIAL_DELTA seg.start_bit).1 with hE1
  set d := (cdu_encode CDU_TYPE_INITIAL_DELTA seg.start_bit).2 with hd
  set E2 := (cdu_encode CDU_TYPE_MEDIUM_INT seg.n_bits).1 with hE2
  set l := (cdu_encode CDU_TYPE_MEDIUM_INT seg.n_bits).2 with hl
  have hE1lt : E1 < 2 ^ d := by
    rw [hE1, hd, hvar1]
    exact cdu_encode_loop_lt (cdu_steps CDU_TYPE_INITIAL_DELTA) seg.start_bit
  have hE2lt : E2 < 2 ^ l := by
    rw [hE2, hl, hvar2]
    exact cdu_encode_loop_lt (cdu_steps CDU_TYPE_MEDIUM_INT) seg.n_bits
  have e1 : (2 : Nat) ^ (1 + d) = 2 * 2 ^ d := by rw [pow_add, pow_one]
  have e2 : (2 : Nat) ^ (1 + d + l) = 2 * 2 ^ d * 2 ^ l := by rw [pow_add, e1]
  have hlist : ssk_encode_segment seg
      = [(0, 1), cdu_encode CDU_TYPE_INITIAL_DELTA seg.start_bit,
         cdu_encode CDU_TYPE_MEDIUM_INT seg.n_bits, (seg.rare_bit, 1)] := by
    rw [ssk_encode_segment, htype]
    norm_num
  have hflat : flatten_fields (ssk_encode_segment seg)
      = (E1 * 2 + E2 * 2 ^ (1 + d) + seg.rare_bit * 2 ^ (1 + d + l),
         1 + d + l + 1) := by
    rw [hlist]
    simp only [flatten_fields, List.foldl_cons, List.foldl_nil, bb_write_field]
    rw [← hE1, ← hd, ← hE2, ← hl, Prod.mk.injEq]
    constructor
    · have hm0 : (0 : Nat) % 2 ^ 1 = 0 := by norm_num
      have hm1 : E1 % 2 ^ d = E1 := Nat.mod_eq_of_lt hE1lt
      have hm2 : E2 % 2 ^ l = E2 := Nat.mod_eq_of_lt hE2lt
      have hm3 : seg.rare_bit % 2 ^ 1 = seg.rare_bit := Nat.mod_eq_of_lt (by omega)
      rw [hm0, hm1, hm2, hm3]
      simp only [Nat.zero_add, pow_zero, mul_one, Nat.mul_zero, Nat.zero_mul, pow_one]
    · omega
  have hfv : (flatten_fields (ssk_encode_segment seg)).1
      = E1 * 2 + E2 * 2 ^ (1 + d) + seg.rare_bit * 2 ^ (1 + d + l) := by
    rw [hflat]
  have hfl : (flatten_fields (ssk_encode_segment seg)).2 = 1 + d + l + 1 := by
    rw [hflat]
  have hS2 : E1 * 2 + E2 * 2 ^ (1 + d) + seg.rare_bit * 2 ^ (1 + d + l)
      = (E1 + (E2 + seg.rare_bit * 2 ^ l) * 2 ^ d) * 2 := by
    rw [e1, e2]
    ring
  refine ⟨d, l, hfl, ?_, ?_, ?_, ?_⟩
  · -- the 1-bit kind field is 0
    rw [hfv, hS2]
    simp [Nat.mul_mod_left]
  · -- parse back start_bit
    have hsum1 : (cdu_steps CDU_TYPE_INITIAL_DELTA).sum = 32 := by decide
    have hdiv : (E1 * 2 + E2 * 2 ^ (1 + d) + seg.rare_bit * 2 ^ (1 + d + l)) / 2 ^ 1
        = E1 + (E2 + seg.rare_bit * 2 ^ l) * 2 ^ d := by
      rw [hS2, pow_one, Nat.mul_div_cancel _ (by norm_num)]
    rw [hfv, hdiv]
    have hrt := cdu_roundtrip_loop (cdu_steps CDU_TYPE_INITIAL_DELTA) seg.start_bit
      (by rw [hsum1]; exact hs) (by decide) (E2 + seg.rare_bit * 2 ^ l) 0 0 0
    rw [← hvar1, ← hE1, ← hd] at hrt
    have hdec : cdu_decode CDU_TYPE_INITIAL_DELTA (E1 + (E2 + seg.rare_bit * 2 ^ l) * 2 ^ d)
        = cdu_decode_loop (cdu_steps CDU_TYPE_INITIAL_DELTA)
            (E1 + (E2 + seg.rare_bit * 2 ^ l) * 2 ^ d) 0 0 0 := rfl
    rw [hdec, hrt]
    simp
  · -- parse back n_bits
    have hsum2 : (cdu_steps CDU_TYPE_MEDIUM_INT).sum = 32 := by decide
    have hdiv : (E1 * 2 + E2 * 2 ^ (1 + d) + seg.rare_bit * 2 ^ (1 + d + l)) / 2 ^ (1 + d)
        = E2 + seg.rare_bit * 2 ^ l := by
      have hS3 : E1 * 2 + E2 * 2 ^ (1 + d) + seg.rare_bit * 2 ^ (1 + d + l)
          = E1 * 2 + (E2 + seg.rare_bit * 2 ^ l) * 2 ^ (1 + d) := by
        rw [e1, e2]
        ring
      rw [hS3, Nat.add_mul_div_right _ _ (Nat.pos_pow_of_pos (1 + d) (by norm_num)),
        Nat.div_eq_of_lt (by rw [e1]; omega), Nat.zero_add]
    rw [hfv, hdiv]
    have hrt := cdu_roundtrip_loop (cdu_steps CDU_TYPE_MEDIUM_INT) seg.n_bits
      (by rw [hsum2]; exact hn) (by decide) seg.rare_bit 0 0 0
    rw [← hvar2, ← hE2, ← hl] at hrt
    have hdec : cdu_decode CDU_TYPE_MEDIUM_INT (E2 + seg.rare_bit * 2 ^ l)
        = cdu_decode_loop (cdu_steps CDU_TYPE_MEDIUM_INT)
            (E2 + seg.rare_bit * 2 ^ l) 0 0 0 := rfl
    rw [hdec, hrt]
    simp
  · -- parse back the membership bit
    have hE12 : E1 * 2 < 2 ^ (1 + d) := by
      rw [e1]
      omega
    have hlow : E1 * 2 + E2 * 2 ^ (1 + d) < 2 ^ (1 + d + l) := by
      have hmul : (E2 + 1) * 2 ^ (1 + d) ≤ 2 ^ l * 2 ^ (1 + d) :=
        Nat.mul_le_mul_right _ hE2lt
      have hexp : (E2 + 1) * 2 ^ (1 + d) = E2 * 2 ^ (1 + d) + 2 ^ (1 + d) := by ring
      have hp : 2 ^ l * 2 ^ (1 + d) = 2 ^ (1 + d + l) := by
        rw [e1, e2]
        ring
      omega
    have hdiv : (E1 * 2 + E2 * 2 ^ (1 + d) + seg.rare_bit * 2 ^ (1 + d + l))
        / 2 ^ (1 + d + l) = seg.rare_bit := by
      rw [Nat.add_mul_div_right _ _ (Nat.pos_pow_of_pos (1 + d + l) (by norm_num)),
        Nat.div_eq_of_lt hlow, Nat.zero_add]
    rw [hfv, hdiv, Nat.mod_eq_of_lt (by omega)]

theorem c8_rle_segment_wire_witness :
    (AbVSeg.mk 0 42 7 1 [] []).segment_type = 0
    ∧ (AbVSeg.mk 0 42 7 1 [] []).start_bit < 2 ^ 32
    ∧ (AbVSeg.mk 0 42 7 1 [] []).n_bits < 2 ^ 32
    ∧ 0 < (AbVSeg.mk 0 42 7 1 [] []).n_bits
    ∧ (AbVSeg.mk 0 42 7 1 [] []).rare_bit ≤ 1
    ∧ ∃ d l,
      (flatten_fields (ssk_encode_segment (AbVSeg.mk 0 42 7 1 [] []))).2
          = 1 + d + l + 1
      ∧ (flatten_fields (ssk_encode_segment (AbVSeg.mk 0 42 7 1 [] []))).1 % 2 = 0
      ∧ cdu_decode CDU_TYPE_INITIAL_DELTA
          ((flatten_fields (ssk_encode_segment (AbVSeg.mk 0 42 7 1 [] []))).1 / 2 ^ 1)
          = ((AbVSeg.mk 0 42 7 1 [] []).start_bit, d)
      ∧ cdu_decode CDU_TYPE_MEDIUM_INT
          ((flatten_fields (ssk_encode_segment (AbVSeg.mk 0 42 7 1 [] []))).1 / 2 ^ (1 + d))
          = ((AbVSeg.mk 0 42 7 1 [] []).n_bits, l)
      ∧ (flatten_fields (ssk_encode_segment (AbVSeg.mk 0 42 7 1 [] []))).1
          / 2 ^ (1 + d + l) % 2 = (AbVSeg.mk 0 42 7 1 [] []).rare_bit :=
  ⟨rfl, by decide, by decide, by decide, by decide,
    c8_rle_segment_wire (AbVSeg.mk 0 42 7 1 [] []) rfl (by decide) (by decide)
      (by decide) (by decide)⟩

/-- C8 counterexample: in a partition whose first RLE segment covers bits
[0, 64), the claim requires the second segment's first CDU field to be
the offset from the previous segment's end (64 for a segment starting at
bit 128); the encoder instead writes the absolute `start_bit`, and
parsing the second segment's stream returns 128. -/
theorem c8_counterexample_absolute_not_delta :
    (cdu_decode CDU_TYPE_INITIAL_DELTA
        ((flatten_fields (ssk_encode_segment (AbVSeg.mk 0 128 64 1 [] []))).1 / 2)).1
      = 128
    ∧ (AbVSeg.mk 0 0 64 1 [] []).start_bit + (AbVSeg.mk 0 0 64 1 [] []).n_bits = 64
    ∧ (128 : Nat) ≠ 64 := by
  refine ⟨by decide, by decide, by decide⟩

end SSK
